import Mathlib

/-! # Sea16 interpreter: a shallow embedding of `sea16.c`

The C program keeps five `uint16_t` registers and a pointer to a 65536-byte
array.  Registers and memory cells are natural numbers here; every conversion
to `uint16_t`, `uint8_t`, `int8_t` or `int16_t` that the C code performs is
written out with an explicit reduction modulo `2^16` or `2^8`.  Expressions that
C evaluates in `int` and that can become negative are computed in `Int` and
converted back with `to_uint16`.

Conventions of the embedding:

* `ram i` is the C object `s->ram[i]`.  Indices `0 .. 65535` are the cells of
  `all_ram`; an index `≥ 65536` is a byte past the end of the array, which the
  C code can reach where it indexes with an `int` that is not converted back to
  `uint16_t` (`write_word`, `memset` in `zalloc`).
* `stdin` and `stdout` are the byte streams of the host process that `getchar`,
  `putchar` and `puts` act on; C keeps them outside `struct cpu`.
* A left shift whose mathematical result does not fit in `int` is taken modulo
  `2^32` (the behaviour of GCC and Clang); since every such result is stored
  in a `uint16_t`, only its low 16 bits matter.
* The complement `~x` of an `int` is `-x - 1`; where it is used as a mask of a
  nonnegative value (`storebf`) it is written as the 32-bit pattern
  `0xffffffff ^^^ x`.
* Division by zero and a shift count of 32 or more have no defined result in C;
  `do_instruction` reports them as `Outcome.undefined`.
* Where the right operand of a compound assignment to `s->pc` fetches an
  operand (`s->pc -= instruction_byte(s) + 1`), the fetch happens first and the
  updated `pc` is the left operand: the image `d9 01` that `main` installs as
  an "infinite loop" jumps onto itself only under this order.
-/

namespace Sea16

/-- Machine state: `struct cpu` together with the host's standard streams. -/
structure cpu where
  /-- the "left" register -/
  a : Nat
  /-- the "right" register -/
  b : Nat
  /-- stack pointer -/
  sp : Nat
  /-- frame pointer -/
  fp : Nat
  /-- program counter -/
  pc : Nat
  /-- memory, `s->ram[i]` -/
  ram : Nat → Nat
  /-- bytes that `getchar` has not read yet -/
  stdin : List Nat
  /-- bytes written with `putchar` and `puts`, oldest first -/
  stdout : List Nat

/-- States that are values of the C type: registers are 16-bit, cells are 8-bit. -/
structure cpu.WF (s : cpu) : Prop where
  a_lt : s.a < 65536
  b_lt : s.b < 65536
  sp_lt : s.sp < 65536
  fp_lt : s.fp < 65536
  pc_lt : s.pc < 65536
  ram_lt : ∀ i, s.ram i < 256

/-- Conversion of an `int` to `uint16_t`. -/
def to_uint16 (i : Int) : Nat := (i % 65536).toNat

/-- The cast `(int8_t)x`. -/
def to_int8 (n : Nat) : Int :=
  if n % 256 < 128 then ((n % 256 : Nat) : Int) else ((n % 256 : Nat) : Int) - 256

/-- The cast `(int16_t)x`. -/
def to_int16 (n : Nat) : Int :=
  if n % 65536 < 32768 then ((n % 65536 : Nat) : Int) else ((n % 65536 : Nat) : Int) - 65536

/-- The assignment `ram[i] = v` to a `uint8_t` cell. -/
def store (ram : Nat → Nat) (i v : Nat) : Nat → Nat :=
  fun j => if j = i then v % 256 else ram j

/-! ## memory access -/

/-- Fetch of one byte at `pc`: `s->ram[s->pc++]`. -/
def instruction_byte (s : cpu) : Nat × cpu :=
  (s.ram s.pc, { s with pc := (s.pc + 1) % 65536 })

/-- Two `instruction_byte` fetches, low byte first. -/
def instruction_word (s : cpu) : Nat × cpu :=
  let r1 := instruction_byte s
  let temp := r1.1
  let r2 := instruction_byte r1.2
  ((temp ||| (r2.1 <<< 8)) % 65536, r2.2)

/-- Reads `s->ram[address]`, the argument converted to `uint16_t`. -/
def read_byte (s : cpu) (address : Nat) : Nat :=
  s.ram (address % 65536)

/-- Reads `read_byte(s, address) | (read_byte(s, address+1) << 8)`. -/
def read_word (s : cpu) (address : Nat) : Nat :=
  let address := address % 65536
  (read_byte s address ||| (read_byte s (address + 1) <<< 8)) % 65536

/-- Assigns `s->ram[address] = value`. -/
def write_byte (s : cpu) (address value : Nat) : cpu :=
  { s with ram := store s.ram (address % 65536) (value % 256) }

/-- Assigns `s->ram[address] = value & 255; s->ram[address+1] = value >> 8;` where
`address+1` is an `int` used as the index as it is. -/
def write_word (s : cpu) (address value : Nat) : cpu :=
  let address := address % 65536
  let value := value % 65536
  let s1 := { s with ram := store s.ram address (value &&& 255) }
  { s1 with ram := store s1.ram (address + 1) (value >>> 8) }

/-! ## addressing modes -/

/-- The table `offsets` of `fast`. -/
def offsets : List Int :=
  [-24, -22, -20, -18, -16, -14, -12, -10, -8, -6, -4, -2, 4, 6, 8, 10]

/-- Address `s->fp + offsets[byte&15]`. -/
def fast (s : cpu) (byte : Nat) : Nat :=
  let byte := byte % 256
  to_uint16 ((s.fp : Int) + offsets.getD (byte &&& 15) 0)

/-- Address `s->fp + (int8_t)instruction_byte(s)`. -/
def near (s : cpu) : Nat × cpu :=
  let r := instruction_byte s
  (to_uint16 ((r.2.fp : Int) + to_int8 r.1), r.2)

/-- Address `s->fp + (int16_t)instruction_word(s)`. -/
def far (s : cpu) : Nat × cpu :=
  let r := instruction_word s
  (to_uint16 ((r.2.fp : Int) + to_int16 r.1), r.2)

/-- Address `instruction_word(s)`. -/
def absolute (s : cpu) : Nat × cpu :=
  instruction_word s

/-! ## common operations -/

/-- Runs `write_byte(s, s->sp--, value>>8); write_byte(s, s->sp--, value&255);`. -/
def push_word (s : cpu) (value : Nat) : cpu :=
  let value := value % 65536
  let s1 := write_byte { s with sp := to_uint16 ((s.sp : Int) - 1) } s.sp (value >>> 8)
  write_byte { s1 with sp := to_uint16 ((s1.sp : Int) - 1) } s1.sp (value &&& 255)

/-- Runs `temp = read_byte(s, ++s->sp); return temp | (read_byte(s, ++s->sp)<<8);`. -/
def pop_word (s : cpu) : Nat × cpu :=
  let s1 := { s with sp := (s.sp + 1) % 65536 }
  let temp := read_byte s1 s1.sp
  let s2 := { s1 with sp := (s1.sp + 1) % 65536 }
  ((temp ||| (read_byte s2 s2.sp <<< 8)) % 65536, s2)

/-- Push `pc`, push `fp`, point `fp` at the saved frame pointer, jump. -/
def sub_call (s : cpu) (address : Nat) : cpu :=
  let s1 := push_word s s.pc
  let s2 := push_word s1 s1.fp
  let s3 := { s2 with fp := (s2.sp + 1) % 65536 }
  { s3 with pc := address % 65536 }

/-- Runs `s->sp = s->fp - 1; s->fp = pop_word(s); s->pc = pop_word(s);`. -/
def sub_return (s : cpu) : cpu :=
  let s1 := { s with sp := to_uint16 ((s.fp : Int) - 1) }
  let r1 := pop_word s1
  let s2 := { r1.2 with fp := r1.1 }
  let r2 := pop_word s2
  { r2.2 with pc := r2.1 }

/-! ## instruction execution -/

/-- How one call of `do_instruction` ends. -/
inductive Outcome where
  /-- the call returned and left this state -/
  | ok (s : cpu)
  /-- the call reached an operation without a defined result in C -/
  | undefined
  /-- the iteration budget given to the call ran out inside a loop -/
  | out_of_fuel

/-- The call `getchar()`: the next byte of standard input, or `EOF` (-1). -/
def getchar (s : cpu) : Int × cpu :=
  match s.stdin with
  | [] => (-1, s)
  | c :: rest => (((c % 256 : Nat) : Int), { s with stdin := rest })

/-- The call `putchar(c)`: writes `c` converted to `unsigned char`. -/
def putchar (s : cpu) (c : Nat) : cpu :=
  { s with stdout := s.stdout ++ [c % 256] }

/-- The call `puts(str)`: writes the string and a newline. -/
def puts (s : cpu) (str : String) : cpu :=
  { s with stdout := s.stdout ++ (str.toList.map Char.toNat ++ [10]) }

/-- The call `memset(&ram[start], value, n)`. -/
def memset (ram : Nat → Nat) (start value n : Nat) : Nat → Nat :=
  fun j => if start ≤ j ∧ j < start + n then value % 256 else ram j

/-- The table `direct_count_offsets` of the direct count instruction. -/
def direct_count_offsets : List Int := [1, 2, -1, -2]

/-- The loop of `switchlist`, entered with a nonzero count:
`while(temp) { temp2 = instruction_word(s); temp3 = instruction_word(s);
if(s->a == temp2) { s->pc = temp3; break; } }`.
The body leaves `temp` as it is, so the loop ends only through `break`;
`fuel` bounds the number of iterations that are run. -/
def switchlist_loop : Nat → cpu → Option cpu
  | 0, _ => none
  | fuel + 1, s =>
    let r2 := instruction_word s
    let temp2 := r2.1
    let r3 := instruction_word r2.2
    let temp3 := r3.1
    if r3.2.a = temp2 then some { r3.2 with pc := temp3 }
    else switchlist_loop fuel r3.2

/-- The loop of `copy`:
`while(temp) { write_byte(s, s->b++, read_byte(s, s->a++)); temp--; }` -/
def copy_loop : Nat → cpu → cpu
  | 0, s => s
  | temp + 1, s =>
    let v := read_byte s s.a
    let s1 := { s with a := (s.a + 1) % 65536 }
    let s2 := write_byte { s1 with b := (s1.b + 1) % 65536 } s1.b v
    copy_loop temp s2

/-- The loop of `fill`:
`while(temp) { write_byte(s, s->b++, s->a); temp--; }` -/
def fill_loop : Nat → cpu → cpu
  | 0, s => s
  | temp + 1, s =>
    let s1 := write_byte { s with b := (s.b + 1) % 65536 } s.b (s.a % 256)
    fill_loop temp s1

/-- The loop of `mcmp`, started with `temp2 = 0`; yields the final `temp2`. -/
def mcmp_loop : Nat → cpu → Nat × cpu
  | 0, s => (0, s)
  | temp + 1, s =>
    if read_byte s s.a > read_byte s s.b then (1, s)
    else if read_byte s s.a < read_byte s s.b then (to_uint16 (-1), s)
    else mcmp_loop temp { s with a := (s.a + 1) % 65536, b := (s.b + 1) % 65536 }

/-- The case `0xef` (direct count) of `do_instruction`; `temp2` is the value
that the local variable `temp2` holds, which this case reads without any
assignment to it having been made. -/
def direct_count (temp2 : Nat) (s : cpu) : cpu :=
  let r := instruction_byte s
  let temp := r.1
  let s := r.2
  let address := fast s temp
  let value := read_word s temp2
  let temp := temp >>> 6
  let mode := temp
  let amount := (temp >>> 4) &&& 3
  let s :=
    if mode = 2 then
      if amount &&& 1 ≠ 0 then { s with a := read_word s value }
      else { s with a := read_byte s value }
    else s
  let s :=
    if mode = 3 then
      if amount &&& 1 ≠ 0 then write_word s value s.a
      else write_byte s value s.a
    else s
  let value := to_uint16 ((value : Int) + direct_count_offsets.getD amount 0)
  let s := write_word s address value
  if mode = 1 then { s with a := value } else s

/-- The value of a C comparison: 1 when it holds, 0 when it does not. -/
def of_bool (p : Bool) : Nat := if p then 1 else 0

/-- One call of `do_instruction`.  `fuel` bounds the iterations of the
`switchlist` loop; `temp2` is the indeterminate initial value of the local
variable `temp2`, which only the direct count case reads before writing. -/
def do_instruction (fuel : Nat) (temp2 : Nat) (s0 : cpu) : Outcome :=
  let r := instruction_byte s0
  let opcode := r.1
  let s := r.2
  if 0x00 ≤ opcode ∧ opcode ≤ 0x0f then        -- lda fast
    .ok { s with a := read_word s (fast s opcode) }
  else if 0x10 ≤ opcode ∧ opcode ≤ 0x1f then   -- ldb fast
    .ok { s with b := read_word s (fast s opcode) }
  else if 0x20 ≤ opcode ∧ opcode ≤ 0x2f then   -- push fast
    .ok (push_word s (read_word s (fast s opcode)))
  else if 0x30 ≤ opcode ∧ opcode ≤ 0x3f then   -- sta fast
    .ok (write_word s (fast s opcode) s.a)
  else if 0x40 ≤ opcode ∧ opcode ≤ 0x4f then   -- lda #x
    .ok { s with a := opcode &&& 15 }
  else if 0x50 ≤ opcode ∧ opcode ≤ 0x5f then   -- ldb #x
    .ok { s with b := opcode &&& 15 }
  else if 0x60 ≤ opcode ∧ opcode ≤ 0x6f then   -- push #x
    .ok (push_word s (opcode &&& 15))
  else if 0x70 ≤ opcode ∧ opcode ≤ 0x7f then   -- add #x
    .ok { s with a := (s.a + (opcode &&& 15)) % 65536 }
  else match opcode with
  | 0x80 => -- lda near
    let m := near s
    .ok { m.2 with a := read_word m.2 m.1 }
  | 0x81 => -- lda far
    let m := far s
    .ok { m.2 with a := read_word m.2 m.1 }
  | 0x82 => -- ldb near
    let m := near s
    .ok { m.2 with b := read_word m.2 m.1 }
  | 0x83 => -- ldb far
    let m := far s
    .ok { m.2 with b := read_word m.2 m.1 }
  | 0x84 => -- push near
    let m := near s
    .ok (push_word m.2 (read_word m.2 m.1))
  | 0x85 => -- push far
    let m := far s
    .ok (push_word m.2 (read_word m.2 m.1))
  | 0x86 => -- sta near
    let m := near s
    .ok (write_word m.2 m.1 m.2.a)
  | 0x87 => -- sta far
    let m := far s
    .ok (write_word m.2 m.1 m.2.a)
  | 0x88 => -- lda #xx
    let r := instruction_byte s
    .ok { r.2 with a := to_uint16 (to_int8 r.1) }
  | 0x89 => -- lda #xxxx
    let r := instruction_word s
    .ok { r.2 with a := r.1 }
  | 0x8a => -- ldb #xx
    let r := instruction_byte s
    .ok { r.2 with b := to_uint16 (to_int8 r.1) }
  | 0x8b => -- ldb #xxxx
    let r := instruction_word s
    .ok { r.2 with b := r.1 }
  | 0x8c => -- push #xx
    let r := instruction_byte s
    .ok (push_word r.2 (to_uint16 (to_int8 r.1)))
  | 0x8d => -- push #xxxx
    let r := instruction_word s
    .ok (push_word r.2 r.1)
  | 0x8e => -- add #xx
    let r := instruction_byte s
    .ok { r.2 with a := to_uint16 ((r.2.a : Int) + to_int8 r.1) }
  | 0x8f => -- add #xxxx
    let r := instruction_word s
    .ok { r.2 with a := (r.2.a + r.1) % 65536 }
  | 0x90 => -- lda abs
    let m := absolute s
    .ok { m.2 with a := read_word m.2 m.1 }
  | 0x91 => -- ldb abs
    let m := absolute s
    .ok { m.2 with b := read_word m.2 m.1 }
  | 0x92 => -- push abs
    let m := absolute s
    .ok (push_word m.2 (read_word m.2 m.1))
  | 0x93 => -- sta abs
    let m := absolute s
    .ok (write_word m.2 m.1 m.2.a)
  | 0x94 => -- blda abs
    let m := absolute s
    .ok { m.2 with a := read_byte m.2 m.1 }
  | 0x95 => -- bldb abs
    let m := absolute s
    .ok { m.2 with b := read_byte m.2 m.1 }
  | 0x96 => -- bpush abs
    let m := absolute s
    .ok (push_word m.2 (read_byte m.2 m.1))
  | 0x97 => -- bsta abs
    let m := absolute s
    .ok (write_byte m.2 m.1 (m.2.a &&& 255))
  | 0x98 => -- blda far
    let m := far s
    .ok { m.2 with a := read_word m.2 m.1 }
  | 0x99 => -- bldb far
    let m := far s
    .ok { m.2 with b := read_word m.2 m.1 }
  | 0x9a => -- bpush far
    let m := far s
    .ok (push_word m.2 (read_byte m.2 m.1))
  | 0x9b => -- bsta far
    let m := far s
    .ok (write_byte m.2 m.1 (m.2.a &&& 255))
  | 0x9c => -- leaa far
    let m := far s
    .ok { m.2 with a := m.1 }
  | 0x9d => -- leab far
    let m := far s
    .ok { m.2 with b := m.1 }
  | 0x9e => -- pea far
    let m := far s
    .ok (push_word m.2 m.1)
  | 0x9f => -- ?
    .ok s
  | 0xa0 => -- deref
    .ok { s with a := read_word s s.a }
  | 0xa1 => -- popstore
    let r := pop_word s
    let s1 := { r.2 with b := r.1 }
    .ok (write_word s1 s1.b s1.a)
  | 0xa2 => -- bderef
    .ok { s with a := read_byte s s.a }
  | 0xa3 => -- bpopstore
    let r := pop_word s
    let s1 := { r.2 with b := r.1 }
    .ok (write_byte s1 s1.b (s1.a &&& 255))
  | 0xa4 => -- pha
    .ok (push_word s s.a)
  | 0xa5 => -- plb
    let r := pop_word s
    .ok { r.2 with b := r.1 }
  | 0xa6 => -- unstack #xx
    let r := instruction_byte s
    .ok { r.2 with sp := (r.2.sp + r.1) % 65536 }
  | 0xa7 => -- unstack #xxxx
    let r := instruction_word s
    .ok { r.2 with sp := (r.2.sp + r.1) % 65536 }
  | 0xa8 => -- call xxxx
    let r := instruction_word s
    .ok (sub_call r.2 r.1)
  | 0xa9 => -- callptr
    .ok (sub_call s s.a)
  | 0xaa => -- call xxxx, #yy
    let r := instruction_word s
    let s1 := sub_call r.2 r.1
    let r1 := instruction_byte s1
    .ok { r1.2 with sp := to_uint16 ((r1.2.sp : Int) - r1.1) }
  | 0xab => -- callptr #yy
    let s1 := sub_call s s.a
    let r1 := instruction_byte s1
    .ok { r1.2 with sp := to_uint16 ((r1.2.sp : Int) - r1.1) }
  | 0xac => -- ?
    .ok s
  | 0xad => -- ?
    .ok s
  | 0xae => -- return
    .ok (sub_return s)
  | 0xaf => -- swap
    let temp := s.a
    let s1 := { s with a := s.b }
    .ok { s1 with a := temp }
  | 0xb0 => -- ucmplt
    .ok { s with a := of_bool (decide (s.a < s.b)) }
  | 0xb1 => -- ucmple
    .ok { s with a := of_bool (decide (s.a ≤ s.b)) }
  | 0xb2 => -- ucmpgt
    .ok { s with a := of_bool (decide (s.a > s.b)) }
  | 0xb3 => -- ucmpge
    .ok { s with a := of_bool (decide (s.a ≥ s.b)) }
  | 0xb4 => -- scmplt
    .ok { s with a := of_bool (decide (to_int16 s.a < to_int16 s.b)) }
  | 0xb5 => -- scmple
    .ok { s with a := of_bool (decide (to_int16 s.a ≤ to_int16 s.b)) }
  | 0xb6 => -- scmpgt
    .ok { s with a := of_bool (decide (to_int16 s.a > to_int16 s.b)) }
  | 0xb7 => -- scmpge
    .ok { s with a := of_bool (decide (to_int16 s.a ≥ to_int16 s.b)) }
  | 0xb8 => -- cmpeq
    .ok { s with a := of_bool (decide (s.a = s.b)) }
  | 0xb9 => -- cmpne
    .ok { s with a := of_bool (decide (s.a ≠ s.b)) }
  | 0xba => -- not
    .ok { s with a := of_bool (decide (s.a = 0)) }
  | 0xbb => -- neg
    .ok { s with a := to_uint16 (-(s.a : Int)) }
  | 0xbc => -- compl
    .ok { s with a := to_uint16 (-(s.a : Int) - 1) }
  | 0xbd => -- and
    .ok { s with a := s.a &&& s.b }
  | 0xbe => -- or
    .ok { s with a := s.a ||| s.b }
  | 0xbf => -- xor
    .ok { s with a := s.a ^^^ s.b }
  | 0xc0 => -- add
    .ok { s with a := (s.a + s.b) % 65536 }
  | 0xc1 => -- dec
    .ok { s with a := to_uint16 ((s.a : Int) - 1) }
  | 0xc2 => -- rsub
    .ok { s with a := to_uint16 ((s.b : Int) - s.a) }
  | 0xc3 => -- sub
    .ok { s with a := to_uint16 ((s.a : Int) - s.b) }
  | 0xc4 => -- lshift
    if s.b < 32 then .ok { s with a := (s.a <<< s.b) % 65536 } else .undefined
  | 0xc5 => -- double
    .ok { s with a := (s.a <<< 1) % 65536 }
  | 0xc6 => -- rshift
    if s.b < 32 then .ok { s with a := s.a >>> s.b } else .undefined
  | 0xc7 => -- arshift
    if s.b < 32 then .ok { s with a := to_uint16 (to_int16 s.a >>> s.b) } else .undefined
  | 0xc8 => -- divu
    if s.b = 0 then .undefined else .ok { s with a := s.a / s.b }
  | 0xc9 => -- divs
    if s.b = 0 then .undefined
    else .ok { s with a := to_uint16 (Int.tdiv (to_int16 s.a) (to_int16 s.b)) }
  | 0xca => -- modu
    if s.b = 0 then .undefined else .ok { s with a := s.a % s.b }
  | 0xcb => -- mods
    if s.b = 0 then .undefined
    else .ok { s with a := to_uint16 (Int.tmod (to_int16 s.a) (to_int16 s.b)) }
  | 0xcc => -- mult
    .ok { s with a := (s.a * s.b) % 65536 }
  | 0xcd => -- sloadbf x,y
    let r := instruction_byte s
    let temp := r.1
    let s := r.2
    let temp2 := temp >>> 4
    let temp3 := temp &&& 15
    let s := { s with a := (s.b >>> temp2) &&& (0xffff >>> (15 - temp3)) }
    if s.a &&& (1 <<< temp3) ≠ 0 then
      .ok { s with a := (s.a ||| (0xffff <<< (temp3 + 1))) % 65536 }
    else .ok s
  | 0xce => -- uloadbf x,y
    let r := instruction_byte s
    let temp := r.1
    let s := r.2
    let temp2 := temp >>> 4
    let temp3 := temp &&& 15
    .ok { s with a := (s.b >>> temp2) &&& (0xffff >>> (15 - temp3)) }
  | 0xcf => -- storebf x,y
    let r := instruction_byte s
    let temp := r.1
    let s := r.2
    let temp2 := temp >>> 4
    let temp3 := temp &&& 15
    .ok { s with a := ((s.b &&& (0xffffffff ^^^ ((0xffff >>> (15 - temp3)) <<< temp2)))
                        ||| ((s.a &&& (0xffff >>> (15 - temp3))) <<< temp2)) % 65536 }
  | 0xd0 => -- jumpt +xx
    let r := instruction_byte s
    let temp := r.1
    let s := r.2
    if s.a ≠ 0 then .ok { s with pc := (s.pc + (temp + 1)) % 65536 } else .ok s
  | 0xd1 => -- jumpt -xx
    let r := instruction_byte s
    let temp := r.1
    let s := r.2
    if s.a ≠ 0 then .ok { s with pc := to_uint16 ((s.pc : Int) - ((temp : Int) - 1)) } else .ok s
  | 0xd2 => -- jumpt xxxx
    let r := instruction_word s
    let temp := r.1
    let s := r.2
    if s.a ≠ 0 then .ok { s with pc := temp } else .ok s
  | 0xd4 => -- jumpf +xx
    let r := instruction_byte s
    let temp := r.1
    let s := r.2
    if s.a = 0 then .ok { s with pc := (s.pc + (temp + 1)) % 65536 } else .ok s
  | 0xd5 => -- jumpf -xx
    let r := instruction_byte s
    let temp := r.1
    let s := r.2
    if s.a = 0 then .ok { s with pc := to_uint16 ((s.pc : Int) - ((temp : Int) - 1)) } else .ok s
  | 0xd6 => -- jumpf xxxx
    let r := instruction_word s
    let temp := r.1
    let s := r.2
    if s.a = 0 then .ok { s with pc := temp } else .ok s
  | 0xd8 => -- jump +xx
    let r := instruction_byte s
    .ok { r.2 with pc := (r.2.pc + (r.1 + 1)) % 65536 }
  | 0xd9 => -- jump -xx
    let r := instruction_byte s
    .ok { r.2 with pc := to_uint16 ((r.2.pc : Int) - ((r.1 : Int) + 1)) }
  | 0xda => -- jump xxxx
    let r := instruction_word s
    .ok { r.2 with pc := r.1 }
  | 0xdc => -- switchrange
    let r1 := instruction_word s    -- low bound, inclusive
    let temp := r1.1
    let r2 := instruction_word r1.2 -- high bound, inclusive
    let temp2 := r2.1
    let r3 := instruction_word r2.2 -- default case
    let temp3 := r3.1
    let s := r3.2
    let s := if s.a < temp ∨ s.a > temp2 then { s with pc := temp3 } else s -- go to default
    -- jump table
    .ok { s with pc := read_word s (to_uint16 ((s.pc : Int) + ((s.a : Int) - (temp : Int)) * 2)) }
  | 0xdd => -- switchlist
    let r := instruction_word s     -- number of cases
    let temp := r.1
    let s := r.2
    if temp ≠ 0 then
      match switchlist_loop fuel s with
      | none => .out_of_fuel
      | some s =>
        -- default case
        let r := instruction_word s
        .ok { r.2 with pc := r.1 }
    else
      -- default case
      let r := instruction_word s
      .ok { r.2 with pc := r.1 }
  | 0xde => -- in xx
    let r := instruction_byte s
    let temp := r.1
    let s := r.2
    if temp = 0 then
      let g := getchar s
      .ok { g.2 with a := to_uint16 g.1 }
    else .ok s
  | 0xdf => -- out xx
    let r := instruction_byte s
    let temp := r.1
    let s := r.2
    if temp = 0 then .ok (putchar s s.a) else .ok s
  | 0xe0 => -- extenda
    .ok { s with a := to_uint16 (to_int8 s.a) }
  | 0xe1 => -- extendb
    .ok { s with b := to_uint16 (to_int8 s.b) }
  | 0xe2 => -- copy #xxxx
    let r := instruction_word s
    .ok (copy_loop r.1 r.2)
  | 0xe3 => -- fill #xxxx
    let r := instruction_word s
    .ok (fill_loop r.1 r.2)
  | 0xe4 => -- mcmp #xxxx
    let r := instruction_word s
    let m := mcmp_loop r.1 r.2
    .ok { m.2 with a := m.1 }
  | 0xec => -- lda sp
    .ok { s with a := s.sp }
  | 0xed => -- sta sp
    .ok { s with sp := s.a }
  | 0xee => -- zalloc #xx
    let r := instruction_byte s
    let temp := r.1
    let s := r.2
    let s := { s with sp := to_uint16 ((s.sp : Int) - temp) }
    .ok { s with ram := memset s.ram s.sp 0 temp }
  | 0xef => -- direct count
    .ok (direct_count temp2 s)
  | _ =>
    .ok (puts s "Illegal opcode")

/-- The loop of `main`: `n` calls of `do_instruction` in a row, giving up at
the first call that does not return. -/
def run (fuel temp2 : Nat) : Nat → cpu → Outcome
  | 0, s => .ok s
  | n + 1, s =>
    match do_instruction fuel temp2 s with
    | .ok s1 => run fuel temp2 n s1
    | o => o

/-! ## Concrete states -/

/-- The state in which `main` starts the interpreter when no image is loaded:
all registers zero except `sp = fp = 0xffff`, memory zero except the two bytes
`d9 01` at address 0. -/
def reset : cpu where
  a := 0
  b := 0
  sp := 0xffff
  fp := 0xffff
  pc := 0
  ram := fun i => if i = 0 then 0xd9 else if i = 1 then 0x01 else 0
  stdin := []
  stdout := []

/-- Memory that holds the bytes of `l` from address 0 on and zero elsewhere: what
`main` has after reading an image file into the zeroed array. -/
def image (l : List Nat) : Nat → Nat :=
  fun i => l.getD i 0

/-- A three-entry jump table for the range 2..4, entered with `a = 3`. -/
def switchrange_state : cpu :=
  { reset with
    ram := image [0xdc, 2, 0, 4, 0, 0x00, 0x10, 0x11, 0x11, 0x22, 0x22, 0x33, 0x33]
    a := 3 }

/-- The table of `switchrange_state`, entered with `a = 7`, above the range 2..4;
the default-address operand is 0x0010. -/
def switchrange_above : cpu :=
  { reset with
    ram := image [0xdc, 2, 0, 4, 0, 0x10, 0x00, 0x11, 0x11, 0x22, 0x22, 0x33, 0x33,
                  0, 0, 0, 0, 0x44, 0x44, 0x55, 0x55, 0, 0, 0, 0, 0, 0x66, 0x66]
    a := 7 }

/-- The same table entered with `a = 0`, below the range 2..4. -/
def switchrange_below : cpu :=
  { switchrange_above with a := 0 }

/-- A `switchlist` with one pair `(5, 0x1000)` and default address 0x2000,
entered with `a = 0`, which the pair does not match. -/
def switchlist_no_match : cpu :=
  { reset with
    ram := image [0xdd, 1, 0, 5, 0, 0x00, 0x10, 0x00, 0x20]
    a := 0 }

/-- A `switchlist` with one pair `(7, 0x1000)` and default address 0x2000,
entered with `a = 7`, which the pair matches; the word stored at the target
address 0x1000 is 0x1234. -/
def switchlist_match : cpu :=
  { reset with
    ram := store (store (image [0xdd, 1, 0, 7, 0, 0x00, 0x10, 0x00, 0x20]) 0x1000 0x34)
      0x1001 0x12
    a := 7 }

/-- A state about to run `storebf 4,3` and then `uloadbf 4,3`, with `a = 5` and
`b = 0xff00`. -/
def bitfield_state : cpu :=
  { reset with
    ram := image [0xcf, 0x42, 0xce, 0x42]
    a := 5
    b := 0xff00 }

/-- A state about to run `sloadbf 2,4` with `b = 0x2c`, whose field is 0xb. -/
def sloadbf_state : cpu :=
  { reset with
    ram := image [0xcd, 0x23]
    b := 0x2c }

/-- The same state with `uloadbf 2,4` in place of `sloadbf 2,4`. -/
def uloadbf_state : cpu :=
  { reset with
    ram := image [0xce, 0x23]
    b := 0x2c }

/-- A state about to run `call 0x1000, #5` (bytes `aa 00 10 05`); the first byte
of the callee at 0x1000 is 0x42. -/
def call_reserve_state : cpu :=
  { reset with ram := store (image [0xaa, 0x00, 0x10, 0x05]) 0x1000 0x42 }

/-- The reset state with the reserved opcode 0x9f at address 0 and nonzero
registers `a = 0x1111`, `b = 0x2222`. -/
def no_op_state : cpu :=
  { reset with
    ram := image [0x9f, 0x12, 0x34]
    a := 0x1111
    b := 0x2222 }

/-- The state `no_op_state` with the undefined opcode 0xf7 at address 0. -/
def illegal_state : cpu :=
  { no_op_state with ram := image [0xf7, 0x12, 0x34] }

/-- A state about to run `add #1` (opcode 0x71) with `a = 0xffff`. -/
def add_wrap_state : cpu :=
  { reset with
    ram := image [0x71]
    a := 0xffff }

/-- A state about to run `swap` (opcode 0xaf) with `a = 1` and `b = 2`. -/
def swap_state : cpu :=
  { reset with
    ram := image [0xaf]
    a := 1
    b := 2 }

/-- A state at `pc = 0x10` about to run `jumpt -5` (bytes `d1 05`) with `a = 1`,
so that the jump is taken. -/
def jumpt_back_state : cpu :=
  { reset with
    ram := store (store (image []) 0x10 0xd1) 0x11 0x05
    pc := 0x10
    a := 1 }

/-- The same place about to run `jumpf -5` (bytes `d5 05`) with `a = 0`, so that
the jump is taken. -/
def jumpf_back_state : cpu :=
  { reset with
    ram := store (store (image []) 0x10 0xd5) 0x11 0x05
    pc := 0x10
    a := 0 }

/-- The same place about to run the unconditional `jump -5` (bytes `d9 05`). -/
def jump_back_state : cpu :=
  { reset with
    ram := store (store (image []) 0x10 0xd9) 0x11 0x05
    pc := 0x10
    a := 1 }

/-- A state about to run the direct count instruction with operand byte 0x10:
index 0, step selector 1 (a step of +2), mode 0. -/
def direct_count_state : cpu :=
  { reset with ram := image [0xef, 0x10] }

/-- A state about to run `mcmp #3` on the blocks `01 02 03` at address 3 and
`01 02 04` at address 6, which differ first in their third byte. -/
def mcmp_state : cpu :=
  { reset with
    ram := image [0xe4, 3, 0, 1, 2, 3, 1, 2, 4]
    a := 3
    b := 6 }

/-- A `switchlist` with a count of 1 and no further bytes (memory is zero from
address 3 on), entered with `a = 1`. -/
def switchlist_endless : cpu :=
  { reset with
    ram := image [0xdd, 1, 0]
    a := 1 }

/-! # Theorems -/

/-! ## Arithmetic of bytes and words -/

theorem word_join (lo hi : Nat) (hlo : lo < 256) (hhi : hi < 256) :
    (lo ||| (hi <<< 8)) % 65536 = lo + 256 * hi := by
  have h : 2 ^ 8 * hi + lo = 2 ^ 8 * hi ||| lo := Nat.mul_add_lt_is_or (by omega) hi
  rw [Nat.lor_comm, Nat.shiftLeft_eq, Nat.mul_comm hi, ← h]
  omega

theorem and_255 (v : Nat) : v &&& 255 = v % 256 :=
  Nat.and_pow_two_sub_one_eq_mod v 8

theorem shr_8 (v : Nat) : v >>> 8 = v / 256 :=
  Nat.shiftRight_eq_div_pow v 8

theorem to_uint16_dec (x : Nat) : to_uint16 ((x : Int) - 1) = (x + 65535) % 65536 := by
  unfold to_uint16; omega

theorem reset_WF : reset.WF where
  a_lt := by decide
  b_lt := by decide
  sp_lt := by decide
  fp_lt := by decide
  pc_lt := by decide
  ram_lt := by
    intro i
    simp only [reset]
    split_ifs <;> omega

/-- An image of bytes is a memory of 8-bit cells. -/
theorem image_lt (l : List Nat) (h : ∀ x ∈ l, x < 256) (i : Nat) : image l i < 256 := by
  unfold image
  rw [List.getD_eq_getElem?_getD]
  cases hi : l[i]? with
  | none => simp
  | some x => simpa using h x (List.getElem?_mem hi)

/-! ## Stack primitives -/

/-- C1: for every state with a 16-bit stack pointer (at any position, the wrap
between 0x0000 and 0xffff included) and any memory, and every 16-bit value
`v`, `push_word(v)` followed by `pop_word` returns `v` and leaves `sp` where it
was before the push. -/
theorem push_pop_word (s : cpu) (v : Nat) (hsp : s.sp < 65536) (hv : v < 65536) :
    (pop_word (push_word s v)).1 = v ∧ (pop_word (push_word s v)).2.sp = s.sp := by
  simp only [pop_word, push_word, write_byte, read_byte, store, to_uint16_dec, and_255, shr_8]
  constructor
  · rw [word_join]
    · split_ifs <;> omega
    · split_ifs <;> omega
    · split_ifs <;> omega
  · omega

/-- Witness of C1 with the stack pointer at 0, where the push wraps to 0xffff. -/
theorem push_pop_word_witness :
    ({ reset with sp := 0 } : cpu).sp < 65536 ∧ 0xabcd < 65536 ∧
    (pop_word (push_word { reset with sp := 0 } 0xabcd)).1 = 0xabcd ∧
    (pop_word (push_word { reset with sp := 0 } 0xabcd)).2.sp = ({ reset with sp := 0 } : cpu).sp :=
  ⟨by decide, by decide, push_pop_word { reset with sp := 0 } 0xabcd (by decide) (by decide)⟩

theorem push_word_sp (s : cpu) (v : Nat) :
    (push_word s v).sp = (s.sp + 65534) % 65536 := by
  simp only [push_word, write_byte, to_uint16_dec]
  omega

theorem push_word_fp (s : cpu) (v : Nat) : (push_word s v).fp = s.fp := rfl

theorem push_word_pc (s : cpu) (v : Nat) : (push_word s v).pc = s.pc := rfl

theorem push_word_ram (s : cpu) (v : Nat) (hsp : s.sp < 65536) :
    (push_word s v).ram =
      store (store s.ram s.sp (v % 65536 / 256)) ((s.sp + 65535) % 65536) (v % 256) := by
  funext j
  have e : s.sp % 65536 = s.sp := Nat.mod_eq_of_lt hsp
  simp only [push_word, write_byte, to_uint16_dec, and_255, shr_8, store, e, Nat.mod_mod]
  split_ifs <;> omega

/-- The word on top of the stack after a push is the pushed value. -/
theorem read_word_push_word (s : cpu) (v : Nat) (hsp : s.sp < 65536) :
    read_word (push_word s v) ((s.sp + 65535) % 65536) = v % 65536 := by
  simp only [read_word, read_byte, push_word_ram s v hsp, store]
  rw [word_join]
  · split_ifs <;> omega
  · split_ifs <;> omega
  · split_ifs <;> omega

/-- A push leaves the word above the old stack top as it was. -/
theorem read_word_push_word_above (s : cpu) (v : Nat) (hsp : s.sp < 65536) :
    read_word (push_word s v) ((s.sp + 1) % 65536) = read_word s ((s.sp + 1) % 65536) := by
  simp only [read_word, read_byte, push_word_ram s v hsp, store]
  have h1 : ¬ ((s.sp + 1) % 65536 % 65536 % 65536 = (s.sp + 65535) % 65536) := by omega
  have h2 : ¬ ((s.sp + 1) % 65536 % 65536 % 65536 = s.sp) := by omega
  have h3 : ¬ (((s.sp + 1) % 65536 % 65536 + 1) % 65536 = (s.sp + 65535) % 65536) := by omega
  have h4 : ¬ (((s.sp + 1) % 65536 % 65536 + 1) % 65536 = s.sp) := by omega
  simp only [h1, h2, h3, h4, if_false]

/-- A word read depends on the memory and on the address modulo `2^16` only. -/
theorem read_word_ram_eq (s t : cpu) (h : s.ram = t.ram) (x y : Nat)
    (hxy : x % 65536 = y % 65536) : read_word s x = read_word t y := by
  simp only [read_word, read_byte, h, hxy]

theorem pop_word_fst (s : cpu) : (pop_word s).1 = read_word s ((s.sp + 1) % 65536) := by
  simp only [pop_word, read_word, read_byte, Nat.mod_mod]

theorem pop_word_snd (s : cpu) : (pop_word s).2 = { s with sp := (s.sp + 2) % 65536 } := by
  simp only [pop_word]
  congr 1
  omega

/-- C2: for every well-formed state and every address, `sub_call(addr)`
followed by `sub_return` restores `pc`, `fp` and `sp`. -/
theorem call_return (s : cpu) (addr : Nat) (hwf : s.WF) :
    (sub_return (sub_call s addr)).pc = s.pc ∧
    (sub_return (sub_call s addr)).fp = s.fp ∧
    (sub_return (sub_call s addr)).sp = s.sp := by
  obtain ⟨_, _, hsp, hfp, hpc, _⟩ := hwf
  have hsp1 : (push_word s s.pc).sp < 65536 := by rw [push_word_sp]; omega
  have e1 : (push_word s s.pc).sp = (s.sp + 65534) % 65536 := push_word_sp s s.pc
  have e2 : (push_word (push_word s s.pc) s.fp).sp = (s.sp + 65532) % 65536 := by
    rw [push_word_sp, e1]; omega
  have r1 : read_word (push_word (push_word s s.pc) s.fp) ((s.sp + 65533) % 65536) = s.fp := by
    have h := read_word_push_word (push_word s s.pc) s.fp hsp1
    rw [e1] at h
    have e : ((s.sp + 65534) % 65536 + 65535) % 65536 = (s.sp + 65533) % 65536 := by omega
    rw [e] at h
    rw [h]; omega
  have r2 : read_word (push_word (push_word s s.pc) s.fp) ((s.sp + 65535) % 65536) = s.pc := by
    have h := read_word_push_word_above (push_word s s.pc) s.fp hsp1
    rw [e1] at h
    have e : ((s.sp + 65534) % 65536 + 1) % 65536 = (s.sp + 65535) % 65536 := by omega
    rw [e] at h
    rw [h, read_word_push_word s s.pc hsp]; omega
  simp only [sub_return, sub_call, pop_word_fst, pop_word_snd, to_uint16_dec, push_word_fp, e2]
  refine ⟨?_, ?_, ?_⟩
  · refine Eq.trans ?_ r2
    apply read_word_ram_eq
    · rfl
    · omega
  · refine Eq.trans ?_ r1
    apply read_word_ram_eq
    · rfl
    · omega
  · omega

/-- Witness of C2 at the reset state, whose stack pointer is 0xffff. -/
theorem call_return_witness :
    reset.WF ∧
    (sub_return (sub_call reset 0x1234)).pc = reset.pc ∧
    (sub_return (sub_call reset 0x1234)).fp = reset.fp ∧
    (sub_return (sub_call reset 0x1234)).sp = reset.sp :=
  ⟨reset_WF, call_return reset 0x1234 reset_WF⟩

/-! ## Operand fetches -/

theorem read_byte_pc (s : cpu) (p x : Nat) : read_byte { s with pc := p } x = read_byte s x :=
  rfl

theorem read_word_pc (s : cpu) (p x : Nat) : read_word { s with pc := p } x = read_word s x :=
  rfl

theorem instruction_byte_fst (s : cpu) (p : Nat) :
    (instruction_byte { s with pc := p % 65536 }).1 = read_byte s p := rfl

theorem instruction_byte_snd (s : cpu) (p : Nat) :
    (instruction_byte { s with pc := p % 65536 }).2 = { s with pc := (p + 1) % 65536 } := by
  simp only [instruction_byte]
  congr 1
  omega

theorem instruction_word_fst (s : cpu) (p : Nat) :
    (instruction_word { s with pc := p % 65536 }).1 = read_word s p := by
  simp only [instruction_word, instruction_byte, read_word, read_byte, Nat.mod_mod]

theorem instruction_word_snd (s : cpu) (p : Nat) :
    (instruction_word { s with pc := p % 65536 }).2 = { s with pc := (p + 2) % 65536 } := by
  simp only [instruction_word, instruction_byte]
  congr 1
  omega

/-- The opcode fetch of a state whose `pc` is a 16-bit value. -/
theorem opcode_fetch (s : cpu) (hpc : s.pc < 65536) :
    (instruction_byte s).1 = read_byte s s.pc ∧
    (instruction_byte s).2 = { s with pc := (s.pc + 1) % 65536 } := by
  simp only [instruction_byte, read_byte, Nat.mod_eq_of_lt hpc, and_self]

/-! ## switchrange -/

/-- The case `0xdc` of `do_instruction`. -/
theorem do_instruction_switchrange (fuel temp2 : Nat) (s : cpu)
    (hop : (instruction_byte s).1 = 0xdc) :
    do_instruction fuel temp2 s =
      (let s := (instruction_byte s).2
       let r1 := instruction_word s
       let temp := r1.1
       let r2 := instruction_word r1.2
       let temp2 := r2.1
       let r3 := instruction_word r2.2
       let temp3 := r3.1
       let s := r3.2
       let s := if s.a < temp ∨ s.a > temp2 then { s with pc := temp3 } else s
       .ok { s with
         pc := read_word s (to_uint16 ((s.pc : Int) + ((s.a : Int) - (temp : Int)) * 2)) }) := by
  unfold do_instruction
  simp only [hop]
  rfl

/-- What `switchrange` does, in both cases of its range test: the jump table is
read at `base + 2*(a - low)`, where `base` is the address after the operands
when `a` is in range and the default-address operand otherwise. -/
theorem switchrange_step (fuel temp2 : Nat) (s : cpu) (hpc : s.pc < 65536)
    (hop : read_byte s s.pc = 0xdc) :
    do_instruction fuel temp2 s =
      .ok { s with
        pc := read_word s (to_uint16
          (((if s.a < read_word s (s.pc + 1) ∨ s.a > read_word s (s.pc + 3)
              then read_word s (s.pc + 5) else (s.pc + 7) % 65536 : Nat) : Int)
            + ((s.a : Int) - (read_word s (s.pc + 1) : Int)) * 2)) } := by
  obtain ⟨f1, f2⟩ := opcode_fetch s hpc
  rw [do_instruction_switchrange fuel temp2 s (f1.trans hop)]
  simp only [f2, instruction_word_fst, instruction_word_snd]
  by_cases hc : s.a < read_word s (s.pc + 1) ∨ s.a > read_word s (s.pc + 3)
  · simp only [if_pos hc, read_word_pc]
  · simp only [if_neg hc, read_word_pc]

/-- C3: when the byte at `pc` is 0xdc and `low ≤ a ≤ high` for the operands
`low`, `high` that follow the opcode, one step sets `pc` to the word stored at
`(T + 2*(a - low)) mod 65536`, where `T = pc + 7` is the address right after
the default-address operand; `a`, `b`, `sp`, `fp` and memory are unchanged. -/
theorem switchrange_in_range (fuel temp2 : Nat) (s : cpu) (hwf : s.WF)
    (hop : read_byte s s.pc = 0xdc)
    (hlow : read_word s (s.pc + 1) ≤ s.a) (hhigh : s.a ≤ read_word s (s.pc + 3)) :
    ∃ s1, do_instruction fuel temp2 s = .ok s1 ∧
      s1.pc = read_word s
        (((s.pc + 7) % 65536 + 2 * (s.a - read_word s (s.pc + 1))) % 65536) ∧
      s1.a = s.a ∧ s1.b = s.b ∧ s1.sp = s.sp ∧ s1.fp = s.fp ∧ s1.ram = s.ram := by
  have hc : ¬ (s.a < read_word s (s.pc + 1) ∨ s.a > read_word s (s.pc + 3)) := by omega
  refine ⟨_, switchrange_step fuel temp2 s hwf.pc_lt hop, ?_, rfl, rfl, rfl, rfl, rfl⟩
  simp only [if_neg hc]
  apply read_word_ram_eq
  · rfl
  · simp only [to_uint16]
    omega

theorem switchrange_state_WF : switchrange_state.WF :=
  ⟨by decide, by decide, by decide, by decide, by decide, fun i => image_lt _ (by decide) i⟩

/-- Witness of C3: the step lands on the second table entry, 0x2222. -/
theorem switchrange_in_range_witness :
    switchrange_state.WF ∧ read_byte switchrange_state switchrange_state.pc = 0xdc ∧
    read_word switchrange_state (switchrange_state.pc + 1) ≤ switchrange_state.a ∧
    switchrange_state.a ≤ read_word switchrange_state (switchrange_state.pc + 3) ∧
    ∃ s1, do_instruction 0 0 switchrange_state = .ok s1 ∧
      s1.pc = read_word switchrange_state
        (((switchrange_state.pc + 7) % 65536 +
          2 * (switchrange_state.a - read_word switchrange_state (switchrange_state.pc + 1)))
          % 65536) ∧
      s1.a = switchrange_state.a ∧ s1.b = switchrange_state.b ∧
      s1.sp = switchrange_state.sp ∧ s1.fp = switchrange_state.fp ∧
      s1.ram = switchrange_state.ram :=
  ⟨switchrange_state_WF, by decide, by decide, by decide,
    switchrange_in_range 0 0 switchrange_state switchrange_state_WF
      (by decide) (by decide) (by decide)⟩

theorem switchrange_above_WF : switchrange_above.WF :=
  ⟨by decide, by decide, by decide, by decide, by decide, fun i => image_lt _ (by decide) i⟩

theorem switchrange_below_WF : switchrange_below.WF :=
  ⟨by decide, by decide, by decide, by decide, by decide, fun i => image_lt _ (by decide) i⟩

/-- C4 at a failing input: `switchrange` for the range 2..4 with default
address 0x0010, entered with `a = 7` above the range.  The case runs
`s->pc = temp3; // go to default` and then, there being no `else`, the table
read `s->pc = read_word(s, s->pc+(s->a-temp)*2)` with `pc` already at the
default: the step ends with `pc = 0x6666`, the word at
`default + 2*(a - low) = 16 + 10 = 26`.  That is neither the default address
0x0010 nor the word at `T + 2*(a - low) = 7 + 10 = 17`, which is 0x4444. -/
theorem switchrange_default_overwritten :
    switchrange_above.WF ∧ read_byte switchrange_above switchrange_above.pc = 0xdc ∧
    (switchrange_above.a < read_word switchrange_above (switchrange_above.pc + 1) ∨
      switchrange_above.a > read_word switchrange_above (switchrange_above.pc + 3)) ∧
    read_word switchrange_above (switchrange_above.pc + 5) = 0x0010 ∧
    do_instruction 0 0 switchrange_above = .ok { switchrange_above with pc := 0x6666 } ∧
    read_word switchrange_above (to_uint16
      ((((switchrange_above.pc + 7) % 65536 : Nat) : Int) +
        2 * ((switchrange_above.a : Int) -
          (read_word switchrange_above (switchrange_above.pc + 1) : Int)))) = 0x4444 :=
  ⟨switchrange_above_WF, by decide, by decide, by decide, rfl, by decide⟩

/-- What the step does for every out-of-range `a`: when the byte at `pc` is 0xdc
and `a < low` or `a > high`, the assignment of the default address `D` is
followed by the table read, so `pc` ends as the word stored at
`(D + 2*(a - low)) mod 65536`; `a`, `b`, `sp`, `fp` and memory are unchanged. -/
theorem switchrange_out_of_range (fuel temp2 : Nat) (s : cpu) (hwf : s.WF)
    (hop : read_byte s s.pc = 0xdc)
    (hout : s.a < read_word s (s.pc + 1) ∨ s.a > read_word s (s.pc + 3)) :
    ∃ s1, do_instruction fuel temp2 s = .ok s1 ∧
      s1.pc = read_word s (to_uint16
        ((read_word s (s.pc + 5) : Int) + 2 * ((s.a : Int) - (read_word s (s.pc + 1) : Int)))) ∧
      s1.a = s.a ∧ s1.b = s.b ∧ s1.sp = s.sp ∧ s1.fp = s.fp ∧ s1.ram = s.ram := by
  refine ⟨_, switchrange_step fuel temp2 s hwf.pc_lt hop, ?_, rfl, rfl, rfl, rfl, rfl⟩
  simp only [if_pos hout]
  apply read_word_ram_eq
  · rfl
  · simp only [to_uint16]
    omega

/-- The out-of-range step with `a = 0` below the range: the table is read at
`default + 2*(0 - 2) = 12`. -/
theorem switchrange_out_of_range_below :
    switchrange_below.WF ∧ read_byte switchrange_below switchrange_below.pc = 0xdc ∧
    (switchrange_below.a < read_word switchrange_below (switchrange_below.pc + 1) ∨
      switchrange_below.a > read_word switchrange_below (switchrange_below.pc + 3)) ∧
    ∃ s1, do_instruction 0 0 switchrange_below = .ok s1 ∧
      s1.pc = read_word switchrange_below (to_uint16
        ((read_word switchrange_below (switchrange_below.pc + 5) : Int) +
          2 * ((switchrange_below.a : Int) -
            (read_word switchrange_below (switchrange_below.pc + 1) : Int)))) ∧
      s1.a = switchrange_below.a ∧ s1.b = switchrange_below.b ∧
      s1.sp = switchrange_below.sp ∧ s1.fp = switchrange_below.fp ∧
      s1.ram = switchrange_below.ram :=
  ⟨switchrange_below_WF, by decide, by decide,
    switchrange_out_of_range 0 0 switchrange_below switchrange_below_WF
      (by decide) (by decide)⟩

/-! ## switchlist -/

/-- The case `0xdd` of `do_instruction`. -/
theorem do_instruction_switchlist (fuel temp2 : Nat) (s : cpu)
    (hop : (instruction_byte s).1 = 0xdd) :
    do_instruction fuel temp2 s =
      (let s := (instruction_byte s).2
       let r := instruction_word s
       let temp := r.1
       let s := r.2
       if temp ≠ 0 then
         match switchlist_loop fuel s with
         | none => .out_of_fuel
         | some s =>
           let r := instruction_word s
           .ok { r.2 with pc := r.1 }
       else
         let r := instruction_word s
         .ok { r.2 with pc := r.1 }) := by
  unfold do_instruction
  simp only [hop]
  rfl

theorem switchlist_no_match_WF : switchlist_no_match.WF :=
  ⟨by decide, by decide, by decide, by decide, by decide, fun i => image_lt _ (by decide) i⟩

/-- C5 at a failing input: one pair, not matching `a`, default 0x2000.  The
loop does not count the pair it has scanned: it goes on to read the default
word and the bytes after it as further pairs, finds `a = 0` as the compare
value of the third "pair" at address 11, and ends with `pc = 0x01dd` (the word
at that pair's target address 0), not with `pc = 0x2000`.  With fewer than three
iterations allowed the loop has not ended. -/
theorem switchlist_no_match_overrun (fuel : Nat) :
    read_byte switchlist_no_match switchlist_no_match.pc = 0xdd ∧
    read_word switchlist_no_match (switchlist_no_match.pc + 1) = 1 ∧
    read_word switchlist_no_match (switchlist_no_match.pc + 3) ≠ switchlist_no_match.a ∧
    read_word switchlist_no_match (switchlist_no_match.pc + 7) = 0x2000 ∧
    do_instruction fuel 0 switchlist_no_match =
      (if fuel < 3 then .out_of_fuel else .ok { switchlist_no_match with pc := 0x01dd }) := by
  refine ⟨by decide, by decide, by decide, by decide, ?_⟩
  match fuel with
  | 0 => rfl
  | 1 => rfl
  | 2 => rfl
  | n + 3 => rfl

/-- With a count of zero the loop is not entered and `switchlist` jumps to the
default address that follows the count. -/
theorem switchlist_zero_pairs (fuel temp2 : Nat) (s : cpu) (hwf : s.WF)
    (hop : read_byte s s.pc = 0xdd) (hcount : read_word s (s.pc + 1) = 0) :
    do_instruction fuel temp2 s = .ok { s with pc := read_word s (s.pc + 3) } := by
  obtain ⟨f1, f2⟩ := opcode_fetch s hwf.pc_lt
  rw [do_instruction_switchlist fuel temp2 s (f1.trans hop)]
  simp only [f2, instruction_word_fst, instruction_word_snd, hcount, ne_eq, not_true_eq_false,
    if_false]

theorem switchlist_match_WF : switchlist_match.WF :=
  ⟨by decide, by decide, by decide, by decide, by decide, fun i => by
    simp only [switchlist_match, store]
    split_ifs
    · decide
    · decide
    · exact image_lt _ (by decide) i⟩

/-- C6 at a failing input: the only pair matches `a` and its target is 0x1000.
The `break` leaves the `while` loop only; the default-case statement
`s->pc = instruction_word(s)` then runs with `pc = 0x1000` and sets `pc` to the
word stored there, 0x1234, whenever the loop is allowed at least one
iteration. -/
theorem switchlist_match_overwritten (fuel : Nat) :
    read_byte switchlist_match switchlist_match.pc = 0xdd ∧
    read_word switchlist_match (switchlist_match.pc + 3) = switchlist_match.a ∧
    read_word switchlist_match (switchlist_match.pc + 5) = 0x1000 ∧
    do_instruction (fuel + 1) 0 switchlist_match = .ok { switchlist_match with pc := 0x1234 } :=
  ⟨by decide, by decide, by decide, rfl⟩

/-! ## Bit-field instructions -/

/-- The two nibbles of the operand byte `start<<4 | width-1`. -/
theorem operand_fields : ∀ start < 16, ∀ k < 16,
    ((start <<< 4) ||| k) >>> 4 = start ∧ ((start <<< 4) ||| k) &&& 15 = k := by
  decide

/-- The mask `0xffff >> 15-temp3` has the low `temp3 + 1` bits set. -/
theorem field_mask : ∀ k < 16, 0xffff >>> (15 - k) = 2 ^ (k + 1) - 1 := by
  decide

theorem and_bit_ne_zero (x k : Nat) : (x &&& (1 <<< k) ≠ 0) ↔ x.testBit k = true := by
  rw [Nat.one_shiftLeft]
  constructor
  · intro h
    by_contra hb
    apply h
    apply Nat.eq_of_testBit_eq
    intro i
    simp only [Nat.testBit_and, Nat.testBit_two_pow, Nat.zero_testBit]
    by_cases hki : k = i
    · subst hki; simp [hb]
    · simp [hki]
  · intro hb h
    have := congrArg (fun n => n.testBit k) h
    simp [Nat.testBit_two_pow, hb] at this

/-- Setting the bits `w .. 15` of a `w`-bit value subtracts `2^w` modulo `2^16`. -/
theorem or_ones_shift (f w : Nat) (hf : f < 2 ^ w) (hw : w ≤ 16) :
    (f ||| (0xffff <<< w)) % 65536 = to_uint16 ((f : Int) - 2 ^ w) := by
  have h : 2 ^ w * 65535 + f = 2 ^ w * 65535 ||| f := Nat.mul_add_lt_is_or hf 65535
  rw [Nat.lor_comm, Nat.shiftLeft_eq, Nat.mul_comm 65535, ← h, to_uint16]
  interval_cases w <;> simp only [Nat.reducePow, Int.reducePow] at hf ⊢ <;> omega

/-- Bit `i` of the word that `storebf` computes. -/
theorem merge_bits (a b start w i : Nat) (hi : i < 16) :
    (((b &&& (0xffffffff ^^^ ((2 ^ w - 1) <<< start))) ||| ((a &&& (2 ^ w - 1)) <<< start))
        % 65536).testBit i =
      if start ≤ i ∧ i < start + w then a.testBit (i - start) else b.testBit i := by
  have e16 : (65536 : Nat) = 2 ^ 16 := by norm_num
  have e32 : (0xffffffff : Nat) = 2 ^ 32 - 1 := by norm_num
  rw [e16, Nat.testBit_mod_two_pow, e32]
  simp only [Nat.testBit_or, Nat.testBit_and, Nat.testBit_xor, Nat.testBit_shiftLeft,
    Nat.testBit_two_pow_sub_one, hi, decide_True, Bool.true_and]
  by_cases h1 : start ≤ i
  · by_cases h2 : i - start < w
    · have h3 : i < start + w := by omega
      have h4 : i < 32 := by omega
      simp [h1, h2, h3, h4]
    · have h3 : ¬ i < start + w := by omega
      have h4 : i < 32 := by omega
      simp [h1, h2, h3, h4]
  · have h3 : ¬ (start ≤ i ∧ i < start + w) := by omega
    have h4 : i < 32 := by omega
    simp [h1, h3, h4]

/-- The case `0xcd` of `do_instruction`. -/
theorem do_instruction_sloadbf (fuel temp2 : Nat) (s : cpu)
    (hop : (instruction_byte s).1 = 0xcd) :
    do_instruction fuel temp2 s =
      (let r := instruction_byte (instruction_byte s).2
       let temp := r.1
       let s := r.2
       let temp2 := temp >>> 4
       let temp3 := temp &&& 15
       let s := { s with a := (s.b >>> temp2) &&& (0xffff >>> (15 - temp3)) }
       if s.a &&& (1 <<< temp3) ≠ 0 then
         .ok { s with a := (s.a ||| (0xffff <<< (temp3 + 1))) % 65536 }
       else .ok s) := by
  unfold do_instruction
  simp only [hop]
  rfl

/-- The case `0xce` of `do_instruction`. -/
theorem do_instruction_uloadbf (fuel temp2 : Nat) (s : cpu)
    (hop : (instruction_byte s).1 = 0xce) :
    do_instruction fuel temp2 s =
      (let r := instruction_byte (instruction_byte s).2
       let temp := r.1
       let s := r.2
       let temp2 := temp >>> 4
       let temp3 := temp &&& 15
       .ok { s with a := (s.b >>> temp2) &&& (0xffff >>> (15 - temp3)) }) := by
  unfold do_instruction
  simp only [hop]
  rfl

/-- The case `0xcf` of `do_instruction`. -/
theorem do_instruction_storebf (fuel temp2 : Nat) (s : cpu)
    (hop : (instruction_byte s).1 = 0xcf) :
    do_instruction fuel temp2 s =
      (let r := instruction_byte (instruction_byte s).2
       let temp := r.1
       let s := r.2
       let temp2 := temp >>> 4
       let temp3 := temp &&& 15
       .ok { s with
         a := ((s.b &&& (0xffffffff ^^^ ((0xffff >>> (15 - temp3)) <<< temp2)))
                ||| ((s.a &&& (0xffff >>> (15 - temp3))) <<< temp2)) % 65536 }) := by
  unfold do_instruction
  simp only [hop]
  rfl

/-- What `uloadbf` does with the operand byte `start<<4 | width-1`. -/
theorem uloadbf_step (fuel temp2 : Nat) (s : cpu) (hpc : s.pc < 65536) (start width : Nat)
    (hstart : start < 16) (hw1 : 1 ≤ width) (hw2 : width ≤ 16)
    (hop : read_byte s s.pc = 0xce)
    (hoperand : read_byte s (s.pc + 1) = (start <<< 4) ||| (width - 1)) :
    do_instruction fuel temp2 s =
      .ok { s with pc := (s.pc + 2) % 65536, a := (s.b >>> start) % 2 ^ width } := by
  obtain ⟨f1, f2⟩ := opcode_fetch s hpc
  obtain ⟨o1, o2⟩ := operand_fields start hstart (width - 1) (by omega)
  have hm := field_mask (width - 1) (by omega)
  have hw : width - 1 + 1 = width := by omega
  rw [do_instruction_uloadbf fuel temp2 s (f1.trans hop)]
  simp only [f2, instruction_byte_fst, instruction_byte_snd, hoperand, o1, o2, hm, hw,
    Nat.and_pow_two_sub_one_eq_mod]

/-- What `sloadbf` does with the operand byte `start<<4 | width-1`. -/
theorem sloadbf_step (fuel temp2 : Nat) (s : cpu) (hpc : s.pc < 65536) (start width : Nat)
    (hstart : start < 16) (hw1 : 1 ≤ width) (hw2 : width ≤ 16)
    (hop : read_byte s s.pc = 0xcd)
    (hoperand : read_byte s (s.pc + 1) = (start <<< 4) ||| (width - 1)) :
    do_instruction fuel temp2 s =
      .ok { s with
        pc := (s.pc + 2) % 65536
        a := if ((s.b >>> start) % 2 ^ width).testBit (width - 1)
             then to_uint16 ((((s.b >>> start) % 2 ^ width : Nat) : Int) - 2 ^ width)
             else (s.b >>> start) % 2 ^ width } := by
  obtain ⟨f1, f2⟩ := opcode_fetch s hpc
  obtain ⟨o1, o2⟩ := operand_fields start hstart (width - 1) (by omega)
  have hm := field_mask (width - 1) (by omega)
  have hw : width - 1 + 1 = width := by omega
  have hf : (s.b >>> start) % 2 ^ width < 2 ^ width := Nat.mod_lt _ (by positivity)
  rw [do_instruction_sloadbf fuel temp2 s (f1.trans hop)]
  simp only [f2, instruction_byte_fst, instruction_byte_snd, hoperand, o1, o2, hm, hw,
    Nat.and_pow_two_sub_one_eq_mod]
  by_cases hb : ((s.b >>> start) % 2 ^ width).testBit (width - 1) = true
  · rw [if_pos ((and_bit_ne_zero _ _).mpr hb), if_pos hb, or_ones_shift _ _ hf hw2]
  · rw [if_neg (fun h => hb ((and_bit_ne_zero _ _).mp h)), if_neg hb]

/-- What `storebf` does with the operand byte `start<<4 | width-1`: the merged
word goes to `a`. -/
theorem storebf_step (fuel temp2 : Nat) (s : cpu) (hpc : s.pc < 65536) (start width : Nat)
    (hstart : start < 16) (hw1 : 1 ≤ width) (hw2 : width ≤ 16)
    (hop : read_byte s s.pc = 0xcf)
    (hoperand : read_byte s (s.pc + 1) = (start <<< 4) ||| (width - 1)) :
    do_instruction fuel temp2 s =
      .ok { s with
        pc := (s.pc + 2) % 65536
        a := ((s.b &&& (0xffffffff ^^^ ((2 ^ width - 1) <<< start)))
               ||| ((s.a &&& (2 ^ width - 1)) <<< start)) % 65536 } := by
  obtain ⟨f1, f2⟩ := opcode_fetch s hpc
  obtain ⟨o1, o2⟩ := operand_fields start hstart (width - 1) (by omega)
  have hm := field_mask (width - 1) (by omega)
  have hw : width - 1 + 1 = width := by omega
  rw [do_instruction_storebf fuel temp2 s (f1.trans hop)]
  simp only [f2, instruction_byte_fst, instruction_byte_snd, hoperand, o1, o2, hm, hw]

theorem bitfield_state_WF : bitfield_state.WF :=
  ⟨by decide, by decide, by decide, by decide, by decide, fun i => image_lt _ (by decide) i⟩

/-- C7 as stated fails: `storebf 4,3` with `a = 5`, `b = 0xff00` puts the merged
word 0xff50 into `a` and leaves `b` alone; `uloadbf 4,3` then extracts the field
of `b`, so `a` ends as 0 and not as `5 mod 2^3 = 5`. -/
theorem storebf_uloadbf_counterexample :
    bitfield_state.WF ∧
    do_instruction 0 0 bitfield_state = .ok { bitfield_state with pc := 2, a := 0xff50 } ∧
    do_instruction 0 0 { bitfield_state with pc := 2, a := 0xff50 } =
      .ok { bitfield_state with pc := 4, a := 0 } ∧
    bitfield_state.a % 2 ^ 3 = 5 :=
  ⟨bitfield_state_WF, rfl, rfl, by decide⟩

/-- C7, amended: `storebf` with operand byte `start<<4 | width-1` leaves `b`
unchanged and puts into `a` the 16-bit word whose bits `start .. start+width-1`
are the low `width` bits of the old `a` and whose other bits are those of `b`;
`uloadbf` with the same operand byte, run next, leaves in `a` the field
`(b >> start) mod 2^width` of that unchanged `b`. -/
theorem storebf_then_uloadbf (fuel temp2 : Nat) (s : cpu) (hwf : s.WF) (start width : Nat)
    (hstart : start < 16) (hw1 : 1 ≤ width) (hw2 : width ≤ 16)
    (h0 : read_byte s s.pc = 0xcf)
    (h1 : read_byte s (s.pc + 1) = (start <<< 4) ||| (width - 1))
    (h2 : read_byte s (s.pc + 2) = 0xce)
    (h3 : read_byte s (s.pc + 3) = (start <<< 4) ||| (width - 1)) :
    ∃ s1 s2, do_instruction fuel temp2 s = .ok s1 ∧ do_instruction fuel temp2 s1 = .ok s2 ∧
      s1.b = s.b ∧ s1.a < 65536 ∧
      (∀ i < 16, s1.a.testBit i =
        if start ≤ i ∧ i < start + width then s.a.testBit (i - start) else s.b.testBit i) ∧
      s2.a = (s.b >>> start) % 2 ^ width ∧ s2.b = s.b := by
  have e2 : read_byte s ((s.pc + 2) % 65536) = 0xce := by
    simpa only [read_byte, Nat.mod_mod] using h2
  have e3 : read_byte s ((s.pc + 2) % 65536 + 1) = (start <<< 4) ||| (width - 1) := by
    rw [← h3]
    simp only [read_byte]
    congr 1
    omega
  refine ⟨_, _, storebf_step fuel temp2 s hwf.pc_lt start width hstart hw1 hw2 h0 h1,
    uloadbf_step fuel temp2 _ (Nat.mod_lt _ (by decide)) start width hstart hw1 hw2 e2 e3,
    rfl, Nat.mod_lt _ (by decide), fun i hi => merge_bits s.a s.b start width i hi, rfl, rfl⟩

/-- Witness of C7 as amended, at `bitfield_state`. -/
theorem storebf_then_uloadbf_witness :
    bitfield_state.WF ∧ read_byte bitfield_state bitfield_state.pc = 0xcf ∧
    read_byte bitfield_state (bitfield_state.pc + 1) = (4 <<< 4) ||| (3 - 1) ∧
    read_byte bitfield_state (bitfield_state.pc + 2) = 0xce ∧
    read_byte bitfield_state (bitfield_state.pc + 3) = (4 <<< 4) ||| (3 - 1) ∧
    ∃ s1 s2, do_instruction 0 0 bitfield_state = .ok s1 ∧ do_instruction 0 0 s1 = .ok s2 ∧
      s1.b = bitfield_state.b ∧ s1.a < 65536 ∧
      (∀ i < 16, s1.a.testBit i =
        if 4 ≤ i ∧ i < 4 + 3 then bitfield_state.a.testBit (i - 4)
        else bitfield_state.b.testBit i) ∧
      s2.a = (bitfield_state.b >>> 4) % 2 ^ 3 ∧ s2.b = bitfield_state.b :=
  ⟨bitfield_state_WF, by decide, by decide, by decide, by decide,
    storebf_then_uloadbf 0 0 bitfield_state bitfield_state_WF 4 3 (by decide) (by decide)
      (by decide) (by decide) (by decide) (by decide) (by decide)⟩

theorem sloadbf_state_WF : sloadbf_state.WF :=
  ⟨by decide, by decide, by decide, by decide, by decide, fun i => image_lt _ (by decide) i⟩

theorem uloadbf_state_WF : uloadbf_state.WF :=
  ⟨by decide, by decide, by decide, by decide, by decide, fun i => image_lt _ (by decide) i⟩

/-- C8: with operand byte `start<<4 | width-1` and `f = (b >> start) mod 2^width`,
`sloadbf` (0xcd) leaves `a = f` when bit `width-1` of `f` is clear and
`a = (f - 2^width) mod 65536` when it is set, and leaves `b` unchanged;
`uloadbf` (0xce) leaves `a = f`. -/
theorem sloadbf_sign_extends (fuel temp2 : Nat) (s : cpu) (hwf : s.WF) (start width : Nat)
    (hstart : start < 16) (hw1 : 1 ≤ width) (hw2 : width ≤ 16)
    (hoperand : read_byte s (s.pc + 1) = (start <<< 4) ||| (width - 1)) :
    (read_byte s s.pc = 0xcd →
      ∃ s1, do_instruction fuel temp2 s = .ok s1 ∧
        s1.a = (if ((s.b >>> start) % 2 ^ width).testBit (width - 1)
                then to_uint16 ((((s.b >>> start) % 2 ^ width : Nat) : Int) - 2 ^ width)
                else (s.b >>> start) % 2 ^ width) ∧
        s1.b = s.b) ∧
    (read_byte s s.pc = 0xce →
      ∃ s1, do_instruction fuel temp2 s = .ok s1 ∧
        s1.a = (s.b >>> start) % 2 ^ width ∧ s1.b = s.b) :=
  ⟨fun hop =>
      ⟨_, sloadbf_step fuel temp2 s hwf.pc_lt start width hstart hw1 hw2 hop hoperand, rfl, rfl⟩,
    fun hop =>
      ⟨_, uloadbf_step fuel temp2 s hwf.pc_lt start width hstart hw1 hw2 hop hoperand, rfl, rfl⟩⟩

/-- Witness of C8: `sloadbf 2,4` of `b = 0x2c` gives the field 0xb sign-extended,
0xfffb; `uloadbf 2,4` gives 0xb. -/
theorem sloadbf_sign_extends_witness :
    (sloadbf_state.WF ∧
      read_byte sloadbf_state (sloadbf_state.pc + 1) = (2 <<< 4) ||| (4 - 1) ∧
      read_byte sloadbf_state sloadbf_state.pc = 0xcd ∧
      ∃ s1, do_instruction 0 0 sloadbf_state = .ok s1 ∧
        s1.a = (if ((sloadbf_state.b >>> 2) % 2 ^ 4).testBit (4 - 1)
                then to_uint16 ((((sloadbf_state.b >>> 2) % 2 ^ 4 : Nat) : Int) - 2 ^ 4)
                else (sloadbf_state.b >>> 2) % 2 ^ 4) ∧
        s1.b = sloadbf_state.b) ∧
    (uloadbf_state.WF ∧
      read_byte uloadbf_state (uloadbf_state.pc + 1) = (2 <<< 4) ||| (4 - 1) ∧
      read_byte uloadbf_state uloadbf_state.pc = 0xce ∧
      ∃ s1, do_instruction 0 0 uloadbf_state = .ok s1 ∧
        s1.a = (uloadbf_state.b >>> 2) % 2 ^ 4 ∧ s1.b = uloadbf_state.b) :=
  ⟨⟨sloadbf_state_WF, by decide, by decide,
      (sloadbf_sign_extends 0 0 sloadbf_state sloadbf_state_WF 2 4 (by decide) (by decide)
        (by decide) (by decide)).1 (by decide)⟩,
    ⟨uloadbf_state_WF, by decide, by decide,
      (sloadbf_sign_extends 0 0 uloadbf_state uloadbf_state_WF 2 4 (by decide) (by decide)
        (by decide) (by decide)).2 (by decide)⟩⟩

/-! ## The self-loop of the reset image -/

/-- The case `0xd9` of `do_instruction`. -/
theorem do_instruction_jump_back (fuel temp2 : Nat) (s : cpu)
    (hop : (instruction_byte s).1 = 0xd9) :
    do_instruction fuel temp2 s =
      (let r := instruction_byte (instruction_byte s).2
       .ok { r.2 with pc := to_uint16 ((r.2.pc : Int) - ((r.1 : Int) + 1)) }) := by
  unfold do_instruction
  simp only [hop]
  rfl

/-- One step of `d9 01` at address 0 leaves the state as it is. -/
theorem self_loop_step (fuel temp2 : Nat) (s : cpu) (hpc : s.pc = 0)
    (h0 : s.ram 0 = 0xd9) (h1 : s.ram 1 = 0x01) :
    do_instruction fuel temp2 s = .ok s := by
  have hop : (instruction_byte s).1 = 0xd9 := by
    simp only [instruction_byte, hpc, h0]
  rw [do_instruction_jump_back fuel temp2 s hop]
  obtain ⟨a, b, sp, fp, pc, ram, i, o⟩ := s
  simp only at hpc h0 h1
  subst hpc
  simp only [instruction_byte, h1, to_uint16]
  rfl

/-- C9: from a state with `a = b = 0`, `pc = 0`, `sp = fp = 0xffff` and the
bytes `d9 01` at addresses 0 and 1, any number `n` of steps ends in a state with
`pc = 0`, `a = b = 0`, `sp = fp = 0xffff` and the same memory. -/
theorem self_loop (fuel temp2 n : Nat) (s : cpu)
    (ha : s.a = 0) (hb : s.b = 0) (hpc : s.pc = 0) (hsp : s.sp = 0xffff) (hfp : s.fp = 0xffff)
    (h0 : s.ram 0 = 0xd9) (h1 : s.ram 1 = 0x01) :
    ∃ sn, run fuel temp2 n s = .ok sn ∧
      sn.pc = 0 ∧ sn.a = 0 ∧ sn.b = 0 ∧ sn.sp = 0xffff ∧ sn.fp = 0xffff ∧ sn.ram = s.ram := by
  have hrun : run fuel temp2 n s = .ok s := by
    induction n with
    | zero => rfl
    | succ k ih => simp only [run, self_loop_step fuel temp2 s hpc h0 h1, ih]
  exact ⟨s, hrun, hpc, ha, hb, hsp, hfp, rfl⟩

/-- Witness of C9: the twenty steps that `main` runs from the reset state. -/
theorem self_loop_witness :
    reset.a = 0 ∧ reset.b = 0 ∧ reset.pc = 0 ∧ reset.sp = 0xffff ∧ reset.fp = 0xffff ∧
    reset.ram 0 = 0xd9 ∧ reset.ram 1 = 0x01 ∧
    ∃ sn, run 0 0 20 reset = .ok sn ∧
      sn.pc = 0 ∧ sn.a = 0 ∧ sn.b = 0 ∧ sn.sp = 0xffff ∧ sn.fp = 0xffff ∧
      sn.ram = reset.ram :=
  ⟨rfl, rfl, rfl, rfl, rfl, rfl, rfl, self_loop 0 0 20 reset rfl rfl rfl rfl rfl rfl rfl⟩

/-! ## Word writes -/

/-- Away from the last cell of the array a word that was written is read back,
and the write touches the two cells of the word only. -/
theorem read_word_write_word (s : cpu) (addr v : Nat) (haddr : addr % 65536 ≠ 65535) :
    read_word (write_word s addr v) addr = v % 65536 ∧
    ∀ i, i ≠ addr % 65536 → i ≠ (addr + 1) % 65536 → (write_word s addr v).ram i = s.ram i := by
  have e : (addr % 65536 + 1) % 65536 = addr % 65536 + 1 := by omega
  constructor
  · simp only [read_word, read_byte, write_word, store, and_255, shr_8, Nat.mod_mod, e]
    rw [word_join]
    · split_ifs <;> omega
    · split_ifs <;> omega
    · split_ifs <;> omega
  · intro i hi1 hi2
    simp only [write_word, store]
    split_ifs <;> first | rfl | omega

/-- C10 at the failing input `addr = 0xffff`: `write_word(0xffff, 0x1234)` on the
reset state stores 0x34 at 0xffff and 0x12 at index 65536, past the end of the
array; cell 0 keeps 0xd9, so `read_word(0xffff)` returns 0xd934, not 0x1234. -/
theorem write_word_last_cell :
    (write_word reset 0xffff 0x1234).ram 0xffff = 0x34 ∧
    (write_word reset 0xffff 0x1234).ram 0 = 0xd9 ∧
    (write_word reset 0xffff 0x1234).ram 65536 = 0x12 ∧
    reset.ram 65536 = 0 ∧
    read_word (write_word reset 0xffff 0x1234) 0xffff = 0xd934 := by
  decide

/-! ## Calls that reserve stack space -/

/-- The case `0xaa` of `do_instruction`. -/
theorem do_instruction_call_reserve (fuel temp2 : Nat) (s : cpu)
    (hop : (instruction_byte s).1 = 0xaa) :
    do_instruction fuel temp2 s =
      (let r := instruction_word (instruction_byte s).2
       let s1 := sub_call r.2 r.1
       let r1 := instruction_byte s1
       .ok { r1.2 with sp := to_uint16 ((r1.2.sp : Int) - r1.1) }) := by
  unfold do_instruction
  simp only [hop]
  rfl

/-- C11 at a failing input: `call 0x1000, #5` from the reset state.  The count
is fetched with `instruction_byte` after `sub_call` has set `pc = 0x1000`, so it
is the callee's first byte 0x42 and not the 5 that follows the address: the
step ends with `pc = 0x1001` and `sp = 0xffff - 4 - 0x42 = 0xffb9`, where the
claim has `pc = 0x1000` and `sp = 0xffff - 4 - 5 = 0xfff6`; `fp = 0xfffc` is as
claimed. -/
theorem call_reserve_reads_callee :
    read_byte call_reserve_state call_reserve_state.pc = 0xaa ∧
    read_word call_reserve_state (call_reserve_state.pc + 1) = 0x1000 ∧
    read_byte call_reserve_state (call_reserve_state.pc + 3) = 5 ∧
    read_byte call_reserve_state 0x1000 = 0x42 ∧
    ∃ s1, do_instruction 0 0 call_reserve_state = .ok s1 ∧
      s1.pc = 0x1001 ∧ s1.sp = 0xffb9 ∧ s1.fp = 0xfffc ∧
      to_uint16 ((call_reserve_state.sp : Int) - 4 - 5) = 0xfff6 :=
  ⟨by decide, by decide, by decide, by decide, _, rfl, by decide, by decide, by decide,
    by decide⟩

/-! ## Opcodes without an action -/

/-- The three reserved cases `0x9f`, `0xac`, `0xad` only move `pc` past the
opcode byte. -/
theorem do_instruction_reserved (fuel temp2 : Nat) (s : cpu)
    (hop : (instruction_byte s).1 = 0x9f ∨ (instruction_byte s).1 = 0xac ∨
      (instruction_byte s).1 = 0xad) :
    do_instruction fuel temp2 s = .ok (instruction_byte s).2 := by
  unfold do_instruction
  rcases hop with h | h | h <;> simp only [h] <;> rfl

/-- An opcode that no case matches takes the `default` branch, which prints the
diagnostic and does nothing else. -/
theorem do_instruction_illegal (fuel temp2 : Nat) (s : cpu)
    (hop : (instruction_byte s).1 ∈
      [0xd3, 0xd7, 0xdb, 0xe5, 0xe6, 0xe7, 0xe8, 0xe9, 0xea, 0xeb, 0xf0, 0xf1, 0xf2, 0xf3,
        0xf4, 0xf5, 0xf6, 0xf7, 0xf8, 0xf9, 0xfa, 0xfb, 0xfc, 0xfd, 0xfe, 0xff]) :
    do_instruction fuel temp2 s = .ok (puts (instruction_byte s).2 "Illegal opcode") := by
  unfold do_instruction
  simp only [List.mem_cons, List.mem_singleton, List.not_mem_nil, or_false] at hop
  rcases hop with h | h | h | h | h | h | h | h | h | h | h | h | h | h | h | h | h | h | h | h
    | h | h | h | h | h | h <;> simp only [h] <;> rfl

/-- C12: when the byte at `pc` is one of the reserved opcodes 0x9f, 0xac, 0xad
or an opcode that no case matches (0xd3, 0xd7, 0xdb, 0xe5..0xeb, 0xf0..0xff), one
step leaves `a`, `b`, `sp`, `fp` and memory unchanged and sets `pc` to
`(pc + 1) mod 65536`. -/
theorem no_action_step (fuel temp2 : Nat) (s : cpu) (hwf : s.WF)
    (hop : read_byte s s.pc ∈
      [0x9f, 0xac, 0xad, 0xd3, 0xd7, 0xdb, 0xe5, 0xe6, 0xe7, 0xe8, 0xe9, 0xea, 0xeb,
        0xf0, 0xf1, 0xf2, 0xf3, 0xf4, 0xf5, 0xf6, 0xf7, 0xf8, 0xf9, 0xfa, 0xfb, 0xfc, 0xfd,
        0xfe, 0xff]) :
    ∃ s1, do_instruction fuel temp2 s = .ok s1 ∧
      s1.a = s.a ∧ s1.b = s.b ∧ s1.sp = s.sp ∧ s1.fp = s.fp ∧ s1.ram = s.ram ∧
      s1.pc = (s.pc + 1) % 65536 := by
  obtain ⟨f1, f2⟩ := opcode_fetch s hwf.pc_lt
  rw [← f1] at hop
  simp only [List.mem_cons] at hop
  rcases hop with h | h | h | hrest
  · exact ⟨_, do_instruction_reserved fuel temp2 s (Or.inl h), rfl, rfl, rfl, rfl, rfl, rfl⟩
  · exact ⟨_, do_instruction_reserved fuel temp2 s (Or.inr (Or.inl h)),
      rfl, rfl, rfl, rfl, rfl, rfl⟩
  · exact ⟨_, do_instruction_reserved fuel temp2 s (Or.inr (Or.inr h)),
      rfl, rfl, rfl, rfl, rfl, rfl⟩
  · refine ⟨_, do_instruction_illegal fuel temp2 s ?_, rfl, rfl, rfl, rfl, rfl, rfl⟩
    simpa only [List.mem_cons] using hrest

theorem no_op_state_WF : no_op_state.WF :=
  ⟨by decide, by decide, by decide, by decide, by decide, fun i => image_lt _ (by decide) i⟩

theorem illegal_state_WF : illegal_state.WF :=
  ⟨by decide, by decide, by decide, by decide, by decide, fun i => image_lt _ (by decide) i⟩

/-- Witness of C12, once at the reserved opcode 0x9f and once at the undefined
opcode 0xf7, each followed by the bytes `12 34` that stay unread. -/
theorem no_action_step_witness :
    (no_op_state.WF ∧
      read_byte no_op_state no_op_state.pc ∈
        [0x9f, 0xac, 0xad, 0xd3, 0xd7, 0xdb, 0xe5, 0xe6, 0xe7, 0xe8, 0xe9, 0xea, 0xeb,
          0xf0, 0xf1, 0xf2, 0xf3, 0xf4, 0xf5, 0xf6, 0xf7, 0xf8, 0xf9, 0xfa, 0xfb, 0xfc, 0xfd,
          0xfe, 0xff] ∧
      ∃ s1, do_instruction 0 0 no_op_state = .ok s1 ∧
        s1.a = no_op_state.a ∧ s1.b = no_op_state.b ∧ s1.sp = no_op_state.sp ∧
        s1.fp = no_op_state.fp ∧ s1.ram = no_op_state.ram ∧
        s1.pc = (no_op_state.pc + 1) % 65536) ∧
    (illegal_state.WF ∧
      read_byte illegal_state illegal_state.pc ∈
        [0x9f, 0xac, 0xad, 0xd3, 0xd7, 0xdb, 0xe5, 0xe6, 0xe7, 0xe8, 0xe9, 0xea, 0xeb,
          0xf0, 0xf1, 0xf2, 0xf3, 0xf4, 0xf5, 0xf6, 0xf7, 0xf8, 0xf9, 0xfa, 0xfb, 0xfc, 0xfd,
          0xfe, 0xff] ∧
      ∃ s1, do_instruction 0 0 illegal_state = .ok s1 ∧
        s1.a = illegal_state.a ∧ s1.b = illegal_state.b ∧ s1.sp = illegal_state.sp ∧
        s1.fp = illegal_state.fp ∧ s1.ram = illegal_state.ram ∧
        s1.pc = (illegal_state.pc + 1) % 65536) :=
  ⟨⟨no_op_state_WF, by decide, no_action_step 0 0 no_op_state no_op_state_WF (by decide)⟩,
    ⟨illegal_state_WF, by decide,
      no_action_step 0 0 illegal_state illegal_state_WF (by decide)⟩⟩

/-! ## Fast addressing -/

/-- C14: for every frame pointer and every byte argument, whose low nibble is the
index `i`, `fast` yields `(fp - 24 + 2*i) mod 65536` when `i ≤ 11` and
`(fp + 4 + 2*(i - 12)) mod 65536` when `12 ≤ i ≤ 15`.  It is a function of `fp`
and the index alone: it fetches nothing and returns no new state. -/
theorem fast_offsets (s : cpu) (byte : Nat) :
    fast s byte =
      if byte % 16 ≤ 11 then to_uint16 ((s.fp : Int) - 24 + 2 * ((byte % 16 : Nat) : Int))
      else to_uint16 ((s.fp : Int) + 4 + 2 * (((byte % 16 : Nat) : Int) - 12)) := by
  have e : byte % 256 &&& 15 = byte % 16 := by
    rw [show (15 : Nat) = 2 ^ 4 - 1 by norm_num, Nat.and_pow_two_sub_one_eq_mod]
    omega
  have hlt : byte % 16 < 16 := Nat.mod_lt _ (by decide)
  simp only [fast, e]
  generalize byte % 16 = i at hlt
  interval_cases i <;> simp [offsets] <;> congr 1 <;> omega

/-! ## Immediate add -/

/-- The low nibble of the opcodes `0x70 + n`. -/
theorem add_imm_nibble : ∀ n < 16, (0x70 + n) &&& 15 = n := by
  decide

/-- The eighth block of the first decode tier, `0x70 .. 0x7f`. -/
theorem do_instruction_add_imm (fuel temp2 : Nat) (s : cpu)
    (h1 : 0x70 ≤ (instruction_byte s).1) (h2 : (instruction_byte s).1 ≤ 0x7f) :
    do_instruction fuel temp2 s =
      .ok { (instruction_byte s).2 with
        a := ((instruction_byte s).2.a + ((instruction_byte s).1 &&& 15)) % 65536 } := by
  have below : ∀ lo hi : Nat, hi < 0x70 →
      ¬ (lo ≤ (instruction_byte s).1 ∧ (instruction_byte s).1 ≤ hi) :=
    fun lo hi hhi hc => absurd (Nat.le_trans h1 hc.2) (Nat.not_le_of_lt hhi)
  unfold do_instruction
  dsimp only
  rw [if_neg (below 0x00 0x0f (by decide)), if_neg (below 0x10 0x1f (by decide)),
    if_neg (below 0x20 0x2f (by decide)), if_neg (below 0x30 0x3f (by decide)),
    if_neg (below 0x40 0x4f (by decide)), if_neg (below 0x50 0x5f (by decide)),
    if_neg (below 0x60 0x6f (by decide)), if_pos ⟨h1, h2⟩]

/-- C15: when the byte at `pc` is `0x70 + n` with `n` in 0..15, one step sets
`a` to `(a + n) mod 65536` and `pc` to `(pc + 1) mod 65536` and leaves `b`,
`sp`, `fp` and memory unchanged. -/
theorem add_imm_step (fuel temp2 : Nat) (s : cpu) (hwf : s.WF) (n : Nat) (hn : n < 16)
    (hop : read_byte s s.pc = 0x70 + n) :
    ∃ s1, do_instruction fuel temp2 s = .ok s1 ∧
      s1.a = (s.a + n) % 65536 ∧ s1.pc = (s.pc + 1) % 65536 ∧
      s1.b = s.b ∧ s1.sp = s.sp ∧ s1.fp = s.fp ∧ s1.ram = s.ram := by
  obtain ⟨f1, f2⟩ := opcode_fetch s hwf.pc_lt
  have h : (instruction_byte s).1 = 0x70 + n := f1.trans hop
  refine ⟨_, do_instruction_add_imm fuel temp2 s (by omega) (by omega), ?_, by rw [f2],
    rfl, rfl, rfl, rfl⟩
  simp only [h, add_imm_nibble n hn, f2]

theorem add_wrap_state_WF : add_wrap_state.WF :=
  ⟨by decide, by decide, by decide, by decide, by decide, fun i => image_lt _ (by decide) i⟩

/-- Witness of C15: `add #1` with `a = 0xffff` gives `a = (0xffff + 1) mod 65536`,
which is 0. -/
theorem add_imm_step_witness :
    add_wrap_state.WF ∧ 1 < 16 ∧ read_byte add_wrap_state add_wrap_state.pc = 0x70 + 1 ∧
    (add_wrap_state.a + 1) % 65536 = 0 ∧
    ∃ s1, do_instruction 0 0 add_wrap_state = .ok s1 ∧
      s1.a = (add_wrap_state.a + 1) % 65536 ∧ s1.pc = (add_wrap_state.pc + 1) % 65536 ∧
      s1.b = add_wrap_state.b ∧ s1.sp = add_wrap_state.sp ∧ s1.fp = add_wrap_state.fp ∧
      s1.ram = add_wrap_state.ram :=
  ⟨add_wrap_state_WF, by decide, by decide, by decide,
    add_imm_step 0 0 add_wrap_state add_wrap_state_WF 1 (by decide) (by decide)⟩

/-! ## swap -/

/-- C17 at a failing input: `swap` with `a = 1`, `b = 2`.  The case runs
`temp = s->a; s->a = s->b; s->a = temp;`, whose last assignment puts the old
`a` back into `a` and never writes `b`: the step only moves `pc`, and ends with
`a = 1`, `b = 2` where the claim has `a = 2`, `b = 1`. -/
theorem swap_leaves_registers :
    read_byte swap_state swap_state.pc = 0xaf ∧ swap_state.a = 1 ∧ swap_state.b = 2 ∧
    do_instruction 0 0 swap_state = .ok { swap_state with pc := 1 } :=
  ⟨by decide, rfl, rfl, rfl⟩

/-! ## Backward relative jumps -/

/-- C18 at a failing input: at `pc = 0x10` with operand `k = 5` the
unconditional `jump -5` ends at `0x12 - (5 + 1) = 0x0c`, but the taken
`jumpt -5` and the taken `jumpf -5` run `s->pc -= temp - 1` and end at
`0x12 - (5 - 1) = 0x0e`. -/
theorem conditional_jump_back_differs :
    do_instruction 0 0 jump_back_state = .ok { jump_back_state with pc := 0x0c } ∧
    do_instruction 0 0 jumpt_back_state = .ok { jumpt_back_state with pc := 0x0e } ∧
    do_instruction 0 0 jumpf_back_state = .ok { jumpf_back_state with pc := 0x0e } ∧
    to_uint16 ((0x12 : Int) - (5 + 1)) = 0x0c :=
  ⟨rfl, rfl, rfl, by decide⟩

/-! ## The frame built by a call -/

/-- A push leaves every word that lies clear of the two cells it writes as it was:
the words at `sp + d` for `1 ≤ d ≤ 65533`. -/
theorem read_word_push_word_clear (s : cpu) (v d : Nat) (hsp : s.sp < 65536)
    (hd1 : 1 ≤ d) (hd2 : d ≤ 65533) :
    read_word (push_word s v) ((s.sp + d) % 65536) = read_word s ((s.sp + d) % 65536) := by
  simp only [read_word, read_byte, push_word_ram s v hsp, store]
  have h1 : ¬ ((s.sp + d) % 65536 % 65536 % 65536 = (s.sp + 65535) % 65536) := by omega
  have h2 : ¬ ((s.sp + d) % 65536 % 65536 % 65536 = s.sp) := by omega
  have h3 : ¬ (((s.sp + d) % 65536 % 65536 + 1) % 65536 = (s.sp + 65535) % 65536) := by omega
  have h4 : ¬ (((s.sp + d) % 65536 % 65536 + 1) % 65536 = s.sp) := by omega
  simp only [h1, h2, h3, h4, if_false]

/-- C16: after `push_word(v)` followed by `sub_call(addr)`, the word at
`fast(12)`, which is the word at `fp + 4`, is `v`; the word at `fp` is the
caller's frame pointer and the word at `fp + 2` is the return address, for
every well-formed state and 16-bit `v`. -/
theorem frame_layout (s : cpu) (v addr : Nat) (hwf : s.WF) (hv : v < 65536) :
    read_word (sub_call (push_word s v) addr) (fast (sub_call (push_word s v) addr) 12) = v ∧
    read_word (sub_call (push_word s v) addr) ((sub_call (push_word s v) addr).fp + 4) = v ∧
    read_word (sub_call (push_word s v) addr) (sub_call (push_word s v) addr).fp = s.fp ∧
    read_word (sub_call (push_word s v) addr) ((sub_call (push_word s v) addr).fp + 2)
      = s.pc := by
  obtain ⟨_, _, hsp, hfp, hpc, _⟩ := hwf
  have e1 : (push_word s v).sp = (s.sp + 65534) % 65536 := push_word_sp s v
  have hsp1 : (push_word s v).sp < 65536 := by rw [e1]; omega
  have e2 : (push_word (push_word s v) s.pc).sp = (s.sp + 65532) % 65536 := by
    rw [push_word_sp, e1]; omega
  have hsp2 : (push_word (push_word s v) s.pc).sp < 65536 := by rw [e2]; omega
  have e3 : (push_word (push_word (push_word s v) s.pc) s.fp).sp = (s.sp + 65530) % 65536 := by
    rw [push_word_sp, e2]; omega
  -- the parameter, under the two pushes of the call
  have rv : read_word (push_word (push_word (push_word s v) s.pc) s.fp)
      ((s.sp + 65535) % 65536) = v := by
    have h3 := read_word_push_word_clear (push_word (push_word s v) s.pc) s.fp 3 hsp2
      (by omega) (by omega)
    have h2 := read_word_push_word_clear (push_word s v) s.pc 1 hsp1 (by omega) (by omega)
    have h1 := read_word_push_word s v hsp
    rw [e2] at h3
    rw [e1] at h2
    have a3 : ((s.sp + 65532) % 65536 + 3) % 65536 = (s.sp + 65535) % 65536 := by omega
    have a2 : ((s.sp + 65534) % 65536 + 1) % 65536 = (s.sp + 65535) % 65536 := by omega
    rw [a3] at h3
    rw [a2] at h2
    rw [h3, h2, h1]
    exact Nat.mod_eq_of_lt hv
  -- the return address, under the push of the frame pointer
  have rpc : read_word (push_word (push_word (push_word s v) s.pc) s.fp)
      ((s.sp + 65533) % 65536) = s.pc := by
    have h3 := read_word_push_word_clear (push_word (push_word s v) s.pc) s.fp 1 hsp2
      (by omega) (by omega)
    have h2 := read_word_push_word (push_word s v) s.pc hsp1
    rw [e2] at h3
    rw [e1] at h2
    have a3 : ((s.sp + 65532) % 65536 + 1) % 65536 = (s.sp + 65533) % 65536 := by omega
    have a2 : ((s.sp + 65534) % 65536 + 65535) % 65536 = (s.sp + 65533) % 65536 := by omega
    rw [a3] at h3
    rw [a2] at h2
    rw [h3, h2]
    exact Nat.mod_eq_of_lt hpc
  -- the saved frame pointer, on top
  have rfp : read_word (push_word (push_word (push_word s v) s.pc) s.fp)
      ((s.sp + 65531) % 65536) = s.fp := by
    have h3 := read_word_push_word (push_word (push_word s v) s.pc) s.fp hsp2
    rw [e2] at h3
    have a3 : ((s.sp + 65532) % 65536 + 65535) % 65536 = (s.sp + 65531) % 65536 := by omega
    rw [a3] at h3
    rw [h3]
    exact Nat.mod_eq_of_lt hfp
  have efp : (sub_call (push_word s v) addr).fp = (s.sp + 65531) % 65536 := by
    simp only [sub_call, push_word_pc, push_word_fp, e3]
    omega
  have eram : (sub_call (push_word s v) addr).ram
      = (push_word (push_word (push_word s v) s.pc) s.fp).ram := rfl
  have efast : fast (sub_call (push_word s v) addr) 12 = (s.sp + 65535) % 65536 := by
    rw [fast_offsets, efp]
    simp only [to_uint16]
    norm_num
    omega
  refine ⟨?_, ?_, ?_, ?_⟩
  · refine Eq.trans ?_ rv
    exact read_word_ram_eq _ _ eram _ _ (by rw [efast])
  · refine Eq.trans ?_ rv
    exact read_word_ram_eq _ _ eram _ _ (by rw [efp]; omega)
  · refine Eq.trans ?_ rfp
    exact read_word_ram_eq _ _ eram _ _ (by rw [efp])
  · refine Eq.trans ?_ rpc
    exact read_word_ram_eq _ _ eram _ _ (by rw [efp]; omega)

/-- Witness of C16 at the reset state, where the three pushes start at 0xffff. -/
theorem frame_layout_witness :
    reset.WF ∧ 0xbeef < 65536 ∧
    read_word (sub_call (push_word reset 0xbeef) 0x1000)
      (fast (sub_call (push_word reset 0xbeef) 0x1000) 12) = 0xbeef ∧
    read_word (sub_call (push_word reset 0xbeef) 0x1000)
      ((sub_call (push_word reset 0xbeef) 0x1000).fp + 4) = 0xbeef ∧
    read_word (sub_call (push_word reset 0xbeef) 0x1000)
      (sub_call (push_word reset 0xbeef) 0x1000).fp = reset.fp ∧
    read_word (sub_call (push_word reset 0xbeef) 0x1000)
      ((sub_call (push_word reset 0xbeef) 0x1000).fp + 2) = reset.pc :=
  ⟨reset_WF, by decide, frame_layout reset 0xbeef 0x1000 reset_WF (by decide)⟩

/-! ## Direct count -/

/-- The case `0xef` of `do_instruction`. -/
theorem do_instruction_direct_count (fuel temp2 : Nat) (s : cpu)
    (hop : (instruction_byte s).1 = 0xef) :
    do_instruction fuel temp2 s = .ok (direct_count temp2 (instruction_byte s).2) := by
  unfold do_instruction
  simp only [hop]
  rfl

/-- The step selector that direct count extracts is 0 for every operand byte:
`temp >>= 6` has already reduced `temp` to the mode when `(temp>>4)&3` is taken. -/
theorem direct_count_amount (x : Nat) (hx : x < 256) : ((x >>> 6) >>> 4) &&& 3 = 0 := by
  have h : (x >>> 6) >>> 4 = 0 := by
    rw [Nat.shiftRight_eq_div_pow, Nat.shiftRight_eq_div_pow]
    norm_num
    omega
  rw [h]
  rfl

theorem direct_count_state_cell (i : Nat) :
    direct_count_state.ram i = 0xef ∨ direct_count_state.ram i = 0x10 ∨
      direct_count_state.ram i = 0 := by
  match i with
  | 0 => exact Or.inl rfl
  | 1 => exact Or.inr (Or.inl rfl)
  | n + 2 => exact Or.inr (Or.inr rfl)

/-- No word of the memory of `direct_count_state` is 1. -/
theorem direct_count_state_word (t : Nat) : read_word direct_count_state t ≠ 1 := by
  simp only [read_word, read_byte]
  have h1 := direct_count_state_cell (t % 65536 % 65536)
  have h2 := direct_count_state_cell ((t % 65536 + 1) % 65536)
  rw [word_join _ _ (by omega) (by omega)]
  omega

/-- What direct count leaves in the frame slot, for every operand byte and every
mode: the word read at `temp2`, plus one.  (The slot at 0xffff is left out, where
`write_word` writes past the array.) -/
theorem direct_count_slot (fuel temp2 : Nat) (s : cpu) (hwf : s.WF)
    (hop : read_byte s s.pc = 0xef)
    (hslot : fast s (read_byte s (s.pc + 1)) ≠ 65535) :
    ∃ s1, do_instruction fuel temp2 s = .ok s1 ∧
      read_word s1 (fast s (read_byte s (s.pc + 1))) = (read_word s temp2 + 1) % 65536 := by
  obtain ⟨f1, f2⟩ := opcode_fetch s hwf.pc_lt
  have hx : read_byte s (s.pc + 1) < 256 := hwf.ram_lt _
  have hlt : fast s (read_byte s (s.pc + 1)) < 65536 := by
    simp only [fast, to_uint16]
    omega
  have hA : fast s (read_byte s (s.pc + 1)) % 65536 ≠ 65535 := by omega
  have hval : to_uint16 ((read_word s temp2 : Nat) + 1) % 65536
      = (read_word s temp2 + 1) % 65536 := by
    simp only [to_uint16]
    omega
  have key : ∀ sm : cpu, read_word
      (write_word sm (fast s (read_byte s (s.pc + 1)))
        (to_uint16 ((read_word s temp2 : Nat) + 1)))
      (fast s (read_byte s (s.pc + 1))) = (read_word s temp2 + 1) % 65536 :=
    fun sm => ((read_word_write_word sm _ _ hA).1).trans hval
  refine ⟨_, do_instruction_direct_count fuel temp2 s (f1.trans hop), ?_⟩
  simp only [direct_count, f2, instruction_byte_fst, instruction_byte_snd,
    direct_count_amount _ hx, direct_count_offsets]
  split_ifs <;> exact key _

/-- C13 at a failing input: direct count with operand byte 0x10 (slot
`fast(0) = fp - 24 = 0xffe7`, selector 1, so a step of +2) on a memory whose slot
holds 0.  Whatever value the unassigned local `temp2` holds, the slot ends up
holding `read_word(temp2) + 1`: the word is read at `temp2` instead of at the
slot address, and the step is the +1 of selector 0.  That is never the claimed
`0 + 2`, also not when `temp2` happens to be the slot address. -/
theorem direct_count_wrong_step (temp2 : Nat) :
    read_byte direct_count_state direct_count_state.pc = 0xef ∧
    read_byte direct_count_state (direct_count_state.pc + 1) = 0x10 ∧
    fast direct_count_state 0x10 = 0xffe7 ∧
    read_word direct_count_state (fast direct_count_state 0x10) = 0 ∧
    ∃ s1, do_instruction 0 temp2 direct_count_state = .ok s1 ∧
      read_word s1 (fast direct_count_state 0x10)
        = (read_word direct_count_state temp2 + 1) % 65536 ∧
      read_word s1 (fast direct_count_state 0x10)
        ≠ (read_word direct_count_state (fast direct_count_state 0x10) + 2) % 65536 := by
  have hstep : do_instruction 0 temp2 direct_count_state =
      .ok (write_word { direct_count_state with pc := 2 } 0xffe7
        (to_uint16 ((read_word direct_count_state temp2 : Nat) + 1))) := rfl
  have hslot := (read_word_write_word { direct_count_state with pc := 2 } 0xffe7
    (to_uint16 ((read_word direct_count_state temp2 : Nat) + 1)) (by decide)).1
  have hval : to_uint16 ((read_word direct_count_state temp2 : Nat) + 1) % 65536
      = (read_word direct_count_state temp2 + 1) % 65536 := by
    simp only [to_uint16]
    omega
  have hne := direct_count_state_word temp2
  have hlt : read_word direct_count_state temp2 < 65536 := Nat.mod_lt _ (by decide)
  refine ⟨by decide, by decide, by decide, by decide, _, hstep, ?_, ?_⟩
  · exact hslot.trans hval
  · rw [show fast direct_count_state 0x10 = 0xffe7 by decide, hslot, hval,
      show read_word direct_count_state 0xffe7 = 0 by decide]
    omega

/-! ## Block compare -/

/-- The case `0xe4` of `do_instruction`. -/
theorem do_instruction_mcmp (fuel temp2 : Nat) (s : cpu)
    (hop : (instruction_byte s).1 = 0xe4) :
    do_instruction fuel temp2 s =
      (let r := instruction_word (instruction_byte s).2
       let m := mcmp_loop r.1 r.2
       .ok { m.2 with a := m.1 }) := by
  unfold do_instruction
  simp only [hop]
  rfl

/-- The compare loop changes `a` and `b` only. -/
theorem mcmp_loop_frame (n : Nat) (s : cpu) :
    (mcmp_loop n s).2.ram = s.ram ∧ (mcmp_loop n s).2.sp = s.sp ∧
    (mcmp_loop n s).2.fp = s.fp ∧ (mcmp_loop n s).2.pc = s.pc := by
  induction n generalizing s with
  | zero => exact ⟨rfl, rfl, rfl, rfl⟩
  | succ k ih =>
    simp only [mcmp_loop]
    split_ifs
    · exact ⟨rfl, rfl, rfl, rfl⟩
    · exact ⟨rfl, rfl, rfl, rfl⟩
    · exact ih _

/-- Equal blocks give 0. -/
theorem mcmp_loop_equal (n : Nat) (s : cpu)
    (h : ∀ i < n, read_byte s (s.a + i) = read_byte s (s.b + i)) :
    (mcmp_loop n s).1 = 0 := by
  induction n generalizing s with
  | zero => rfl
  | succ k ih =>
    have h0 : read_byte s s.a = read_byte s s.b := h 0 (by omega)
    simp only [mcmp_loop, h0, gt_iff_lt, lt_irrefl, if_false]
    apply ih
    intro i hi
    have hi1 := h (i + 1) (by omega)
    simp only [read_byte] at hi1 ⊢
    have ea : ((s.a + 1) % 65536 + i) % 65536 = (s.a + (i + 1)) % 65536 := by omega
    have eb : ((s.b + 1) % 65536 + i) % 65536 = (s.b + (i + 1)) % 65536 := by omega
    rw [ea, eb]
    exact hi1

/-- Blocks that differ first at place `i` give 1 or 0xffff by the order of the
two bytes there. -/
theorem mcmp_loop_differ (n : Nat) (s : cpu) (i : Nat) (hi : i < n)
    (heq : ∀ j < i, read_byte s (s.a + j) = read_byte s (s.b + j))
    (hne : read_byte s (s.a + i) ≠ read_byte s (s.b + i)) :
    (mcmp_loop n s).1 =
      if read_byte s (s.a + i) > read_byte s (s.b + i) then 1 else 0xffff := by
  induction n generalizing s i with
  | zero => omega
  | succ k ih =>
    cases i with
    | zero =>
      simp only [Nat.add_zero] at hne ⊢
      simp only [mcmp_loop]
      by_cases hgt : read_byte s s.a > read_byte s s.b
      · simp only [hgt, if_true]
      · have hlt : read_byte s s.a < read_byte s s.b := by omega
        simp only [hgt, hlt, if_false, if_true]
        rfl
    | succ i' =>
      have h0 : read_byte s s.a = read_byte s s.b := heq 0 (by omega)
      simp only [mcmp_loop, h0, gt_iff_lt, lt_irrefl, if_false]
      have ea : ∀ j, read_byte s ((s.a + 1) % 65536 + j) = read_byte s (s.a + (j + 1)) := by
        intro j
        simp only [read_byte]
        congr 1
        omega
      have eb : ∀ j, read_byte s ((s.b + 1) % 65536 + j) = read_byte s (s.b + (j + 1)) := by
        intro j
        simp only [read_byte]
        congr 1
        omega
      have key := ih { s with a := (s.a + 1) % 65536, b := (s.b + 1) % 65536 } i' (by omega)
        (fun j hj => by
          show read_byte s ((s.a + 1) % 65536 + j) = read_byte s ((s.b + 1) % 65536 + j)
          rw [ea, eb]
          exact heq (j + 1) (by omega))
        (by
          show read_byte s ((s.a + 1) % 65536 + i') ≠ read_byte s ((s.b + 1) % 65536 + i')
          rw [ea, eb]
          exact hne)
      rw [key]
      show (if read_byte s ((s.a + 1) % 65536 + i') > read_byte s ((s.b + 1) % 65536 + i')
        then 1 else 0xffff) = _
      rw [ea, eb]

/-- C19: when the byte at `pc` is 0xe4 with count operand `n`, one step leaves
memory, `sp` and `fp` unchanged and sets `a` to 0 if the `n` bytes from the old
`a` equal the `n` bytes from the old `b` (addresses modulo 65536; also for
`n = 0`), and otherwise, at the first place `i < n` where they differ, to 1 if
the byte at `a + i` is the greater one and to 0xffff if it is the smaller. -/
theorem mcmp_step (fuel temp2 : Nat) (s : cpu) (hwf : s.WF)
    (hop : read_byte s s.pc = 0xe4) :
    ∃ s1, do_instruction fuel temp2 s = .ok s1 ∧
      s1.ram = s.ram ∧ s1.sp = s.sp ∧ s1.fp = s.fp ∧
      ((∀ i < read_word s (s.pc + 1), read_byte s (s.a + i) = read_byte s (s.b + i)) →
        s1.a = 0) ∧
      (∀ i < read_word s (s.pc + 1),
        (∀ j < i, read_byte s (s.a + j) = read_byte s (s.b + j)) →
        read_byte s (s.a + i) ≠ read_byte s (s.b + i) →
        s1.a = if read_byte s (s.a + i) > read_byte s (s.b + i) then 1 else 0xffff) := by
  obtain ⟨f1, f2⟩ := opcode_fetch s hwf.pc_lt
  have hstep : do_instruction fuel temp2 s =
      .ok { (mcmp_loop (read_word s (s.pc + 1)) { s with pc := (s.pc + 1 + 2) % 65536 }).2 with
        a := (mcmp_loop (read_word s (s.pc + 1)) { s with pc := (s.pc + 1 + 2) % 65536 }).1 } := by
    rw [do_instruction_mcmp fuel temp2 s (f1.trans hop)]
    simp only [f2, instruction_word_fst, instruction_word_snd]
  obtain ⟨hram, hsp, hfp, _⟩ :=
    mcmp_loop_frame (read_word s (s.pc + 1)) { s with pc := (s.pc + 1 + 2) % 65536 }
  refine ⟨_, hstep, hram, hsp, hfp, ?_, ?_⟩
  · intro h
    exact mcmp_loop_equal _ { s with pc := (s.pc + 1 + 2) % 65536 } h
  · intro i hi heq hne
    exact mcmp_loop_differ _ { s with pc := (s.pc + 1 + 2) % 65536 } i hi heq hne

theorem mcmp_state_WF : mcmp_state.WF :=
  ⟨by decide, by decide, by decide, by decide, by decide, fun i => image_lt _ (by decide) i⟩

/-- Witness of C19: the blocks of `mcmp_state` agree in two bytes and then have
3 against 4, so the step ends with `a = 0xffff`; `b` is left at the place of the
difference. -/
theorem mcmp_step_witness :
    mcmp_state.WF ∧ read_byte mcmp_state mcmp_state.pc = 0xe4 ∧
    do_instruction 0 0 mcmp_state = .ok { mcmp_state with pc := 3, a := 0xffff, b := 8 } ∧
    ∃ s1, do_instruction 0 0 mcmp_state = .ok s1 ∧
      s1.ram = mcmp_state.ram ∧ s1.sp = mcmp_state.sp ∧ s1.fp = mcmp_state.fp ∧
      ((∀ i < read_word mcmp_state (mcmp_state.pc + 1),
          read_byte mcmp_state (mcmp_state.a + i) = read_byte mcmp_state (mcmp_state.b + i)) →
        s1.a = 0) ∧
      (∀ i < read_word mcmp_state (mcmp_state.pc + 1),
        (∀ j < i, read_byte mcmp_state (mcmp_state.a + j)
          = read_byte mcmp_state (mcmp_state.b + j)) →
        read_byte mcmp_state (mcmp_state.a + i) ≠ read_byte mcmp_state (mcmp_state.b + i) →
        s1.a = if read_byte mcmp_state (mcmp_state.a + i)
                  > read_byte mcmp_state (mcmp_state.b + i) then 1 else 0xffff) :=
  ⟨mcmp_state_WF, by decide, rfl, mcmp_step 0 0 mcmp_state mcmp_state_WF (by decide)⟩

/-! ## Termination of a step -/

theorem switchlist_endless_cell (i : Nat) (hi : 3 ≤ i) : switchlist_endless.ram i = 0 := by
  match i, hi with
  | n + 3, _ => rfl

/-- From any place `pc ≡ 3 (mod 4)` the pair scan of `switchlist_endless` finds a
compare word whose low byte is 0, which is not `a = 1`, and moves on by 4. -/
theorem switchlist_endless_loop (fuel : Nat) (s : cpu)
    (hram : s.ram = switchlist_endless.ram) (ha : s.a = 1)
    (hpc : s.pc % 4 = 3) (hlt : s.pc < 65536) :
    switchlist_loop fuel s = none := by
  induction fuel generalizing s with
  | zero => rfl
  | succ k ih =>
    have hlo : s.ram s.pc = 0 := by
      rw [hram]
      exact switchlist_endless_cell _ (by omega)
    have hhi : s.ram ((s.pc + 1) % 65536) < 256 := by
      rw [hram]
      exact image_lt _ (by decide) _
    simp only [switchlist_loop, instruction_word, instruction_byte]
    rw [if_neg]
    · apply ih
      · exact hram
      · exact ha
      · show ((((s.pc + 1) % 65536 + 1) % 65536 + 1) % 65536 + 1) % 65536 % 4 = 3
        omega
      · exact Nat.mod_lt _ (by decide)
    · show ¬ s.a = (s.ram s.pc ||| s.ram ((s.pc + 1) % 65536) <<< 8) % 65536
      rw [ha, hlo, word_join _ _ (by decide) hhi]
      omega

set_option maxHeartbeats 8000000 in
/-- Every case other than `switchlist` returns (or stops at an operation that C
leaves undefined) whatever the iteration budget is: the loops of `copy`, `fill`
and `mcmp` count `temp` down and are recursions on that count. -/
theorem only_switchlist_runs_on (fuel temp2 : Nat) (s : cpu)
    (hop : (instruction_byte s).1 ≠ 0xdd) :
    do_instruction fuel temp2 s ≠ .out_of_fuel := by
  unfold do_instruction
  dsimp only
  by_cases h0 : 0x00 ≤ (instruction_byte s).1 ∧ (instruction_byte s).1 ≤ 0x0f
  · rw [if_pos h0]; intro h; cases h
  rw [if_neg h0]
  by_cases h1 : 0x10 ≤ (instruction_byte s).1 ∧ (instruction_byte s).1 ≤ 0x1f
  · rw [if_pos h1]; intro h; cases h
  rw [if_neg h1]
  by_cases h2 : 0x20 ≤ (instruction_byte s).1 ∧ (instruction_byte s).1 ≤ 0x2f
  · rw [if_pos h2]; intro h; cases h
  rw [if_neg h2]
  by_cases h3 : 0x30 ≤ (instruction_byte s).1 ∧ (instruction_byte s).1 ≤ 0x3f
  · rw [if_pos h3]; intro h; cases h
  rw [if_neg h3]
  by_cases h4 : 0x40 ≤ (instruction_byte s).1 ∧ (instruction_byte s).1 ≤ 0x4f
  · rw [if_pos h4]; intro h; cases h
  rw [if_neg h4]
  by_cases h5 : 0x50 ≤ (instruction_byte s).1 ∧ (instruction_byte s).1 ≤ 0x5f
  · rw [if_pos h5]; intro h; cases h
  rw [if_neg h5]
  by_cases h6 : 0x60 ≤ (instruction_byte s).1 ∧ (instruction_byte s).1 ≤ 0x6f
  · rw [if_pos h6]; intro h; cases h
  rw [if_neg h6]
  by_cases h7 : 0x70 ≤ (instruction_byte s).1 ∧ (instruction_byte s).1 ≤ 0x7f
  · rw [if_pos h7]; intro h; cases h
  rw [if_neg h7]
  split
  all_goals first
    | (intro h; cases h)
    | (split <;> intro h <;> cases h)
    | (exfalso; omega)

/-- C20 at a failing input: `switchlist` with count 1 and `a = 1` on a memory that
is zero after the count.  The loop `while(temp)` leaves `temp` at 1; every
compare word it reads (at addresses 3, 7, 11, ... and, after address 0xffff,
again at 3) has low byte 0 and differs from `a`, so the `break` is never
reached: no number of iterations ends the step. -/
theorem switchlist_never_ends (fuel : Nat) :
    read_byte switchlist_endless switchlist_endless.pc = 0xdd ∧
    read_word switchlist_endless (switchlist_endless.pc + 1) = 1 ∧
    do_instruction fuel 0 switchlist_endless = .out_of_fuel := by
  refine ⟨by decide, by decide, ?_⟩
  rw [do_instruction_switchlist fuel 0 switchlist_endless rfl]
  have hloop : switchlist_loop fuel
      (instruction_word (instruction_byte switchlist_endless).2).2 = none :=
    switchlist_endless_loop fuel _ rfl rfl (by decide) (by decide)
  have hcount : (instruction_word (instruction_byte switchlist_endless).2).1 = 1 := by decide
  simp only [hloop, hcount]
  rfl

end Sea16
